import Mathlib

/-!
Verification of the task-ordering and optimistic-synchronization engine of the
Task-Kalender application (`src/App.tsx`, second revision of the component,
lines ~900 onward).  The data model and operations below are shallow embeddings
of the TypeScript source: TypeScript numbers used as integers become `Int`,
nullable fields become `Option`, the `Record<ISODate, DbTask[]>` store becomes
an association list, and each mutation handler becomes a pure function from the
pre-state (plus explicit remote-success flags and an explicit clock) to the
post-state together with the ordered list of local-state writes and remote
calls that the handler performs.
-/

/-- Shallow embedding of the `DbTask` row type (`App.tsx` line 907):
`priority` is a non-nullable `number` in the source type, so it is a plain
`Int` here; `category`, `created_at`, `repeat_every_days`, `repeat_until`
and `notes` are nullable. -/
structure DbTask where
  id : String
  user_id : String
  date : String
  title : String
  category : Option String
  done : Bool
  created_at : Option String
  priority : Int
  repeat_every_days : Option Int
  repeat_until : Option String
  sort_order : Int
  notes : Option String
deriving Repr, DecidableEq

abbrev ISODate := String

/-- The `tasksByDate` record (`Record<ISODate, DbTask[]>`), embedded as an
association list so that presence/absence of a date key is observable
(JavaScript `delete m[iso]` genuinely removes the key). -/
abbrev StoreMap := List (ISODate × List DbTask)

/-- `m[iso] ?? []`: the task list of a day, empty when the key is absent. -/
def lookupDay (m : StoreMap) (iso : ISODate) : List DbTask :=
  match m.find? (fun p => p.1 == iso) with
  | some p => p.2
  | none => []

/-- Whether the record has the key `iso` at all. -/
def hasDay (m : StoreMap) (iso : ISODate) : Bool :=
  (m.find? (fun p => p.1 == iso)).isSome

/-- `{ ...m, [iso]: l }`: update the binding in place when the key exists,
append it otherwise (JavaScript object spread keeps the key position of an
existing key and appends a new key at the end). -/
def setDay (m : StoreMap) (iso : ISODate) (l : List DbTask) : StoreMap :=
  if hasDay m iso then m.map (fun p => if p.1 == iso then (iso, l) else p)
  else m ++ [(iso, l)]

/-- `delete m[iso]`. -/
def eraseDay (m : StoreMap) (iso : ISODate) : StoreMap :=
  m.filter (fun p => !(p.1 == iso))

/-- Extensional equality of two stores: the same keys are present and every
day's task list is identical field-for-field. -/
def storeEqv (m₁ m₂ : StoreMap) : Prop :=
  (∀ iso, hasDay m₁ iso = hasDay m₂ iso) ∧ ∀ iso, lookupDay m₁ iso = lookupDay m₂ iso

theorem setDay_find_map_pred (iso : ISODate) (l : List DbTask) :
    ((fun p : ISODate × List DbTask => p.1 == iso) ∘
      (fun p : ISODate × List DbTask => if p.1 == iso then (iso, l) else p)) =
    (fun p : ISODate × List DbTask => p.1 == iso) := by
  funext p
  by_cases h : p.1 = iso <;> simp [h]

theorem lookupDay_setDay_self (m : StoreMap) (iso : ISODate) (l : List DbTask) :
    lookupDay (setDay m iso l) iso = l := by
  unfold setDay
  split
  · rename_i h
    unfold hasDay at h
    unfold lookupDay
    rw [List.find?_map, setDay_find_map_pred]
    cases hf : m.find? (fun p => p.1 == iso) with
    | none => rw [hf] at h; simp at h
    | some q =>
      have hq := List.find?_some hf
      simp only [beq_iff_eq] at hq
      simp [hf, hq]
  · unfold lookupDay
    rename_i h
    unfold hasDay at h
    rw [List.find?_append]
    cases hf : m.find? (fun p => p.1 == iso) with
    | none => simp
    | some q => rw [hf] at h; simp at h

theorem lookupDay_setDay_other (m : StoreMap) (iso iso' : ISODate) (l : List DbTask)
    (h : iso' ≠ iso) : lookupDay (setDay m iso l) iso' = lookupDay m iso' := by
  have hpred : ((fun p : ISODate × List DbTask => p.1 == iso') ∘
      (fun p : ISODate × List DbTask => if p.1 == iso then (iso, l) else p)) =
      (fun p : ISODate × List DbTask => p.1 == iso') := by
    funext p
    by_cases hp : p.1 = iso
    · simp [hp, beq_iff_eq]
    · simp [hp]
  unfold setDay
  split
  · unfold lookupDay
    rw [List.find?_map, hpred]
    cases hf : m.find? (fun p => p.1 == iso') with
    | none => simp
    | some q =>
      have hq := List.find?_some hf
      simp only [beq_iff_eq] at hq
      simp [hf, hq, h]
  · unfold lookupDay
    rw [List.find?_append]
    cases hf : m.find? (fun p => p.1 == iso') with
    | none =>
      simp only [hf, Option.none_or]
      rw [List.find?_cons_of_neg _ (by simpa [beq_iff_eq] using fun hh => h hh.symm)]
      simp [List.find?]
    | some q => simp [hf]

theorem hasDay_setDay_self (m : StoreMap) (iso : ISODate) (l : List DbTask) :
    hasDay (setDay m iso l) iso = true := by
  unfold setDay
  split
  · rename_i h
    unfold hasDay at h ⊢
    rw [List.find?_map, setDay_find_map_pred]
    cases hf : m.find? (fun p => p.1 == iso) with
    | none => rw [hf] at h; simp at h
    | some q => simp
  · unfold hasDay
    rw [List.find?_append]
    cases hf : m.find? (fun p => p.1 == iso) <;> simp

theorem hasDay_setDay_other (m : StoreMap) (iso iso' : ISODate) (l : List DbTask)
    (h : iso' ≠ iso) : hasDay (setDay m iso l) iso' = hasDay m iso' := by
  have hpred : ((fun p : ISODate × List DbTask => p.1 == iso') ∘
      (fun p : ISODate × List DbTask => if p.1 == iso then (iso, l) else p)) =
      (fun p : ISODate × List DbTask => p.1 == iso') := by
    funext p
    by_cases hp : p.1 = iso
    · simp [hp, beq_iff_eq]
    · simp [hp]
  unfold setDay
  split
  · unfold hasDay
    rw [List.find?_map, hpred]
    cases hf : m.find? (fun p => p.1 == iso') <;> simp [hf]
  · unfold hasDay
    rw [List.find?_append]
    cases hf : m.find? (fun p => p.1 == iso') with
    | none =>
      simp only [hf, Option.none_or]
      rw [List.find?_cons_of_neg _ (by simpa [beq_iff_eq] using fun hh => h hh.symm)]
      simp [List.find?]
    | some q => simp [hf]

theorem hasDay_of_lookupDay_ne_nil {m : StoreMap} {iso : ISODate}
    (h : lookupDay m iso ≠ []) : hasDay m iso = true := by
  unfold lookupDay at h
  unfold hasDay
  cases hf : m.find? (fun p => p.1 == iso) with
  | none => rw [hf] at h; exact absurd rfl h
  | some p => simp [hf]

/-! ## The display comparator (`sortForDisplay`, `App.tsx` line 1310) -/

/-- Model of `String.prototype.trim`: drop leading and trailing whitespace
from the character list (structurally recursive, hence executable in the
kernel). -/
def jsTrim (s : String) : String :=
  String.mk (((s.data.dropWhile Char.isWhitespace).reverse.dropWhile Char.isWhitespace).reverse)

/-- Model of `String.prototype.toLowerCase` over the character list. -/
def jsToLower (s : String) : String :=
  String.mk (s.data.map Char.toLower)

/-- `Number(b)` on a boolean. -/
def doneNum (b : Bool) : Int := if b then 1 else 0

/-- `t.priority ?? 1`; `priority` is a non-nullable `number` in the `DbTask`
type, so the null-coalescing in the source is the identity. -/
def prioOf (t : DbTask) : Int := t.priority

/-- `(t.category ?? "").trim().toLowerCase()`. -/
def catKey (t : DbTask) : String := jsToLower (jsTrim (t.category.getD ""))

/-- Model of `String.prototype.localeCompare`: a three-valued comparison
along the (linear) order on strings. -/
def localeCompareM (a b : String) : Int :=
  if a < b then -1 else if a = b then 0 else 1

/-- The display comparator: completion ascending, then priority descending,
then `sort_order` ascending, then lowercased category name. -/
def sortForDisplay (a b : DbTask) : Int :=
  let dDone := doneNum a.done - doneNum b.done
  if dDone ≠ 0 then dDone
  else
    let pa := prioOf a
    let pb := prioOf b
    if pb ≠ pa then pb - pa
    else
      let soA := a.sort_order
      let soB := b.sort_order
      if soA ≠ soB then soA - soB
      else localeCompareM (catKey a) (catKey b)

/-- The boolean "not greater" relation induced by the comparator; a JavaScript
`Array.prototype.sort(cmp)` produces a list in which consecutive elements
satisfy `cmp ≤ 0`. -/
def sortLE (a b : DbTask) : Bool := decide (sortForDisplay a b ≤ 0)

/-- `(tasksByDate[iso] ?? []).slice().sort(sortForDisplay)`
(`getSortedDayTasks`, `App.tsx` line 1327). -/
def sortDay (l : List DbTask) : List DbTask := l.mergeSort sortLE

theorem sortForDisplay_le_iff (a b : DbTask) :
    sortForDisplay a b ≤ 0 ↔
      (doneNum a.done < doneNum b.done ∨
        (doneNum a.done = doneNum b.done ∧
          (prioOf b < prioOf a ∨
            (prioOf a = prioOf b ∧
              (a.sort_order < b.sort_order ∨
                (a.sort_order = b.sort_order ∧ catKey a ≤ catKey b)))))) := by
  unfold sortForDisplay localeCompareM
  dsimp only
  split_ifs with h1 h2 h3 h4 h5
  · constructor
    · intro hle
      left
      omega
    · rintro (h | ⟨he, hrest⟩) <;> omega
  · constructor
    · intro hle
      right
      exact ⟨by omega, Or.inl (by omega)⟩
    · rintro (h | ⟨he, (h | ⟨he2, hrest⟩)⟩) <;> omega
  · constructor
    · intro hle
      right
      exact ⟨by omega, Or.inr ⟨by omega, Or.inl (by omega)⟩⟩
    · rintro (h | ⟨he, (h | ⟨he2, (h | ⟨he3, hrest⟩)⟩)⟩) <;> omega
  · constructor
    · intro hx
      right
      exact ⟨by omega, Or.inr ⟨by omega, Or.inr ⟨by omega, le_of_lt h4⟩⟩⟩
    · intro hx
      norm_num
  · constructor
    · intro hx
      right
      exact ⟨by omega, Or.inr ⟨by omega, Or.inr ⟨by omega, le_of_eq h5⟩⟩⟩
    · intro hx
      norm_num
  · constructor
    · intro hle
      omega
    · rintro (h | ⟨he, (h | ⟨he2, (h | ⟨he3, hle⟩)⟩)⟩)
      · omega
      · omega
      · omega
      · exact absurd (lt_of_le_of_ne hle h5) h4

theorem sortForDisplay_eq_zero_iff (a b : DbTask) :
    sortForDisplay a b = 0 ↔
      (doneNum a.done = doneNum b.done ∧ prioOf a = prioOf b ∧
        a.sort_order = b.sort_order ∧ catKey a = catKey b) := by
  unfold sortForDisplay localeCompareM
  dsimp only
  split_ifs with h1 h2 h3 h4 h5
  · constructor
    · intro h
      omega
    · rintro ⟨he, hrest⟩
      omega
  · constructor
    · intro h
      omega
    · rintro ⟨he, he2, hrest⟩
      omega
  · constructor
    · intro h
      omega
    · rintro ⟨he, he2, he3, hrest⟩
      omega
  · constructor
    · intro h
      norm_num at h
    · rintro ⟨he, he2, he3, he4⟩
      exact absurd he4 (ne_of_lt h4)
  · exact ⟨fun _ => ⟨by omega, by omega, by omega, h5⟩, fun _ => rfl⟩
  · constructor
    · intro h
      norm_num at h
    · rintro ⟨he, he2, he3, he4⟩
      exact absurd he4 h5

theorem sortLE_total (a b : DbTask) : sortLE a b || sortLE b a := by
  unfold sortLE
  simp only [Bool.or_eq_true, decide_eq_true_eq]
  rw [sortForDisplay_le_iff, sortForDisplay_le_iff]
  rcases lt_trichotomy (doneNum a.done) (doneNum b.done) with hd | hd | hd
  · exact Or.inl (Or.inl hd)
  · rcases lt_trichotomy (prioOf a) (prioOf b) with hp | hp | hp
    · exact Or.inr (Or.inr ⟨hd.symm, Or.inl hp⟩)
    · rcases lt_trichotomy a.sort_order b.sort_order with hs | hs | hs
      · exact Or.inl (Or.inr ⟨hd, Or.inr ⟨hp, Or.inl hs⟩⟩)
      · rcases le_total (catKey a) (catKey b) with hc | hc
        · exact Or.inl (Or.inr ⟨hd, Or.inr ⟨hp, Or.inr ⟨hs, hc⟩⟩⟩)
        · exact Or.inr (Or.inr ⟨hd.symm, Or.inr ⟨hp.symm, Or.inr ⟨hs.symm, hc⟩⟩⟩)
      · exact Or.inr (Or.inr ⟨hd.symm, Or.inr ⟨hp.symm, Or.inl hs⟩⟩)
    · exact Or.inl (Or.inr ⟨hd, Or.inl hp⟩)
  · exact Or.inr (Or.inl hd)

theorem sortLE_trans (a b c : DbTask) : sortLE a b → sortLE b c → sortLE a c := by
  unfold sortLE
  simp only [decide_eq_true_eq]
  rw [sortForDisplay_le_iff, sortForDisplay_le_iff, sortForDisplay_le_iff]
  rintro (h1 | ⟨e1, h1⟩) (h2 | ⟨e2, h2⟩)
  · exact Or.inl (lt_trans h1 h2)
  · exact Or.inl (e2 ▸ h1)
  · exact Or.inl (e1 ▸ h2)
  · right
    refine ⟨e1.trans e2, ?_⟩
    rcases h1 with h1 | ⟨f1, h1⟩ <;> rcases h2 with h2 | ⟨f2, h2⟩
    · exact Or.inl (lt_trans h2 h1)
    · exact Or.inl (f2 ▸ h1)
    · exact Or.inl (f1 ▸ h2)
    · right
      refine ⟨f1.trans f2, ?_⟩
      rcases h1 with h1 | ⟨g1, h1⟩ <;> rcases h2 with h2 | ⟨g2, h2⟩
      · exact Or.inl (lt_trans h1 h2)
      · exact Or.inl (g2 ▸ h1)
      · exact Or.inl (g1 ▸ h2)
      · exact Or.inr ⟨g1.trans g2, le_trans h1 h2⟩

theorem sortDay_perm (l : List DbTask) : List.Perm (sortDay l) l :=
  List.mergeSort_perm l sortLE

theorem sortDay_pairwise (l : List DbTask) : (sortDay l).Pairwise (fun a b => sortLE a b = true) := by
  exact @List.sorted_mergeSort DbTask sortLE
    (fun a b c hab hbc => sortLE_trans a b c hab hbc)
    (fun a b => sortLE_total a b) l

theorem mem_sortDay {a : DbTask} {l : List DbTask} : a ∈ sortDay l ↔ a ∈ l :=
  (sortDay_perm l).mem_iff

/-- The `(done, priority)` partition test used by the reorder logic
(`Number(t.done) === Number(done) && (t.priority ?? 1) === (priority ?? 1)`). -/
def inGroupB (gdone : Bool) (gprio : Int) (t : DbTask) : Bool :=
  doneNum t.done == doneNum gdone && prioOf t == gprio

theorem inGroupB_iff {gdone : Bool} {gprio : Int} {t : DbTask} :
    inGroupB gdone gprio t = true ↔ doneNum t.done = doneNum gdone ∧ prioOf t = gprio := by
  unfold inGroupB
  simp

theorem sortLE_refl (a : DbTask) : sortLE a a = true := by
  unfold sortLE
  simp only [decide_eq_true_eq]
  rw [sortForDisplay_le_iff]
  exact Or.inr ⟨rfl, Or.inr ⟨rfl, Or.inr ⟨rfl, le_refl _⟩⟩⟩

theorem sortLE_same_group_iff {a b : DbTask}
    (hd : doneNum a.done = doneNum b.done) (hp : prioOf a = prioOf b)
    (hso : a.sort_order ≠ b.sort_order) :
    sortLE a b = true ↔ a.sort_order < b.sort_order := by
  unfold sortLE
  simp only [decide_eq_true_eq]
  rw [sortForDisplay_le_iff]
  constructor
  · rintro (h | ⟨e1, (h | ⟨e2, (h | ⟨e3, hle⟩)⟩)⟩) <;> omega
  · intro h
    exact Or.inr ⟨hd, Or.inr ⟨hp, Or.inl h⟩⟩

theorem sortLE_strict_same_group {a b : DbTask}
    (hd : doneNum a.done = doneNum b.done) (hp : prioOf a = prioOf b)
    (hlt : a.sort_order < b.sort_order) :
    sortLE a b = true ∧ sortLE b a = false := by
  constructor
  · exact (sortLE_same_group_iff hd hp (by omega)).mpr hlt
  · rw [Bool.eq_false_iff]
    intro h
    have := (sortLE_same_group_iff hd.symm hp.symm (by omega)).mp h
    omega

theorem sortForDisplay_outsider {a b c : DbTask}
    (hd : doneNum a.done = doneNum b.done) (hp : prioOf a = prioOf b)
    (hc : doneNum c.done ≠ doneNum a.done ∨ prioOf c ≠ prioOf a) :
    sortForDisplay a c = sortForDisplay b c ∧ sortForDisplay a c ≠ 0 := by
  unfold sortForDisplay
  dsimp only
  split_ifs <;> constructor <;> omega

/-- In a sorted, duplicate-free list, an element `a` that is strictly below `b`
with nothing of the list strictly between them sits immediately before `b`. -/
theorem sorted_adjacent_of_between {l : List DbTask} {a b : DbTask}
    (hs : l.Pairwise (fun x y => sortLE x y = true)) (hn : l.Nodup)
    (ha : a ∈ l) (hb : b ∈ l) (hst : sortLE b a = false)
    (hbet : ∀ c ∈ l, sortLE a c = true → sortLE c b = true → c = a ∨ c = b) :
    ∃ u v, l = u ++ a :: b :: v := by
  induction l with
  | nil => cases ha
  | cons x xs ih =>
    have hab : a ≠ b := by
      intro h
      rw [h] at hst
      rw [sortLE_refl b] at hst
      cases hst
    rcases List.mem_cons.mp ha with rfl | ha'
    · have hb' : b ∈ xs := by
        rcases List.mem_cons.mp hb with h | h
        · exact absurd h.symm hab
        · exact h
      cases xs with
      | nil => cases hb'
      | cons y ys =>
        have hay : sortLE a y = true :=
          (List.pairwise_cons.mp hs).1 y (List.mem_cons_self y ys)
        rcases List.mem_cons.mp hb' with rfl | hbys
        · exact ⟨[], ys, rfl⟩
        · have hyb : sortLE y b = true :=
            (List.pairwise_cons.mp (List.pairwise_cons.mp hs).2).1 b hbys
          rcases hbet y (List.mem_cons_of_mem _ (List.mem_cons_self y ys)) hay hyb with h | h
          · have hnx : a ∉ (y :: ys) := (List.nodup_cons.mp hn).1
            exact absurd (h ▸ List.mem_cons_self y ys) hnx
          · have hny : y ∉ ys := (List.nodup_cons.mp (List.nodup_cons.mp hn).2).1
            exact absurd (h ▸ hbys) hny
    · have hbx : b ≠ x := by
        intro h
        have := (List.pairwise_cons.mp hs).1 a ha'
        rw [← h] at this
        rw [hst] at this
        cases this
      have hb' : b ∈ xs := by
        rcases List.mem_cons.mp hb with h | h
        · exact absurd h hbx
        · exact h
      obtain ⟨u, v, huv⟩ := ih (List.pairwise_cons.mp hs).2 (List.nodup_cons.mp hn).2 ha' hb'
        (fun c hc h1 h2 => hbet c (List.mem_cons_of_mem _ hc) h1 h2)
      exact ⟨x :: u, v, by rw [huv]; rfl⟩

/-! ## Application state and the optimistic mutation controller -/

/-- `normalizeCategory` (`App.tsx` line 955): trim. -/
def normalizeCategory (s : String) : String := jsTrim s

/-- `mapTasksByDate` (`App.tsx` line 994): bucket rows by `date`, key
creation order following first occurrence, pushes preserving row order. -/
def mapTasksByDate (rows : List DbTask) : StoreMap :=
  rows.foldl (fun m t => setDay m t.date (lookupDay m t.date ++ [t])) []

/-- `uniqueCategoriesFromTasks` (`App.tsx` line 1004): all non-empty
normalized categories of loaded tasks, deduplicated (a `Set`), sorted
(`localeCompare` modeled by the order on strings). -/
def uniqueCategoriesFromTasks (m : StoreMap) : List String :=
  let all := m.foldl (fun acc p => acc ++ p.2.filterMap (fun t =>
    let c := normalizeCategory (t.category.getD "")
    if c = "" then none else some c)) []
  (all.dedup).mergeSort (fun a b => decide (a ≤ b))

/-- `ensureCategory` (`App.tsx` line 1501). -/
def ensureCategory (cats : List String) (nameRaw : String) : List String :=
  let name := normalizeCategory nameRaw
  if name = "" then cats
  else if name ∈ cats then cats
  else (cats ++ [name]).mergeSort (fun a b => decide (a ≤ b))

/-- The component state the engine mutates: the `tasksByDate` record and the
`categories` list. -/
structure AppState where
  tasksByDate : StoreMap
  categories : List String
deriving Repr, DecidableEq

/-- One observable step of a mutation handler: a local React state write
(`setTasksByDate` / `setCategories`) or a remote Supabase call. -/
inductive Evt where
  | locTasks
  | locCats
  | remUpdate
  | remSelect
  | remDelete
  | remInsert
deriving Repr, DecidableEq

/-- The draft row the delete-undo compensating action re-inserts
(`App.tsx` line 1632): only `user_id`, `date`, `title`, `category`, `done`,
`priority` and `sort_order` are sent. -/
structure UndoInsertRow where
  user_id : String
  date : String
  title : String
  category : Option String
  done : Bool
  priority : Int
  sort_order : Int
deriving Repr, DecidableEq

/-- Result of running a mutation handler: final state, the ordered event
trace, and (for `deleteTask`) the staged undo draft. -/
structure RunOut where
  state : AppState
  events : List Evt
  staged : Option UndoInsertRow := none
deriving Repr, DecidableEq

/-- The remote backend as seen by the signed-in session: the `tasks` table,
the owner id every call is scoped by, the visible date range, and whether the
range `select` of `loadVisibleTasks` succeeds. -/
structure RemoteEnv where
  table : List DbTask
  uid : String
  visFrom : ISODate
  visTo : ISODate
  selectOk : Bool
deriving Repr, DecidableEq

/-- Remote range query ordering (`order("date").order("sort_order")`). -/
def rowLE (a b : DbTask) : Bool :=
  if a.date = b.date then decide (a.sort_order ≤ b.sort_order)
  else decide (a.date ≤ b.date)

/-- The rows `loadVisibleTasks` selects: the signed-in user's rows in the
visible range, ordered by date then `sort_order`. -/
def selectVisibleRows (env : RemoteEnv) : List DbTask :=
  (env.table.filter (fun t =>
    t.user_id == env.uid && decide (env.visFrom ≤ t.date) && decide (t.date ≤ env.visTo))).mergeSort rowLE

/-- `loadVisibleTasks` (`App.tsx` line 1388): on select failure the store is
left untouched; on success the whole store and category list are replaced. -/
def loadVisibleTasksRun (st : AppState) (env : RemoteEnv) : RunOut :=
  if !env.selectOk then { state := st, events := [Evt.remSelect] }
  else
    let mapped := mapTasksByDate (selectVisibleRows env)
    { state := { tasksByDate := mapped, categories := uniqueCategoriesFromTasks mapped },
      events := [Evt.remSelect, Evt.locTasks, Evt.locCats] }

/-- `toggleTask` (`App.tsx` line 1566): optimistic `done` flip, remote
update, inverse flip on failure. -/
def toggleTaskRun (st : AppState) (selectedISO : ISODate) (taskId : String)
    (updateOk : Bool) : RunOut :=
  let dayList := lookupDay st.tasksByDate selectedISO
  match dayList.find? (fun t => t.id == taskId) with
  | none => { state := st, events := [] }
  | some cur =>
    let nextDone := !cur.done
    let day1 := (lookupDay st.tasksByDate selectedISO).map
      (fun t => if t.id == taskId then { t with done := nextDone } else t)
    let st1 := { st with tasksByDate := setDay st.tasksByDate selectedISO day1 }
    if updateOk then { state := st1, events := [Evt.locTasks, Evt.remUpdate] }
    else
      let day2 := (lookupDay st1.tasksByDate selectedISO).map
        (fun t => if t.id == taskId then { t with done := !nextDone } else t)
      { state := { st1 with tasksByDate := setDay st1.tasksByDate selectedISO day2 },
        events := [Evt.locTasks, Evt.remUpdate, Evt.locTasks] }

/-- `saveEditTask` (`App.tsx` line 1663): optimistic field update, remote
update, restore of the captured task on failure. -/
def saveEditTaskRun (st : AppState) (selectedISO : ISODate) (editTaskId : String)
    (editTitle editCategory : String) (editHighPriority : Bool) (editNotes : String)
    (updateOk : Bool) : RunOut :=
  let title := jsTrim editTitle
  if title = "" then { state := st, events := [] }
  else
    let cat : Option String :=
      if editCategory = "__none__" then none else some (normalizeCategory editCategory)
    let catTruthy := match cat with
      | some c => !(c == "")
      | none => false
    let cats0 := if catTruthy then ensureCategory st.categories (cat.getD "") else st.categories
    let st0 : AppState := { tasksByDate := st.tasksByDate, categories := cats0 }
    let evs0 : List Evt := if catTruthy then [Evt.locCats] else []
    let list := lookupDay st0.tasksByDate selectedISO
    match list.find? (fun t => t.id == editTaskId) with
    | none => { state := st0, events := evs0 }
    | some before =>
      let nextPriority : Int := if editHighPriority then 2 else 1
      let notes := if jsTrim editNotes = "" then none else some (jsTrim editNotes)
      let day1 := (lookupDay st0.tasksByDate selectedISO).map (fun t =>
        if t.id == editTaskId then
          { t with title := title, category := cat, priority := nextPriority, notes := notes }
        else t)
      let st1 := { st0 with tasksByDate := setDay st0.tasksByDate selectedISO day1 }
      if updateOk then { state := st1, events := evs0 ++ [Evt.locTasks, Evt.remUpdate] }
      else
        let day2 := (lookupDay st1.tasksByDate selectedISO).map
          (fun t => if t.id == editTaskId then before else t)
        { state := { st1 with tasksByDate := setDay st1.tasksByDate selectedISO day2 },
          events := evs0 ++ [Evt.locTasks, Evt.remUpdate, Evt.locTasks] }

/-- `deleteTask` (`App.tsx` line 1607): optimistic removal (dropping the day
key when the bucket empties), remote delete, snapshot restore on failure, and
on success an undo draft staged for the toast. -/
def deleteTaskRun (st : AppState) (selectedISO : ISODate) (uid taskId : String)
    (deleteOk : Bool) : RunOut :=
  let snapshot := lookupDay st.tasksByDate selectedISO
  match snapshot.find? (fun t => t.id == taskId) with
  | none => { state := st, events := [] }
  | some deletedTask =>
    let next := snapshot.filter (fun t => !(t.id == taskId))
    let m1 := setDay st.tasksByDate selectedISO next
    let m2 := if next.isEmpty then eraseDay m1 selectedISO else m1
    let st1 := { st with tasksByDate := m2 }
    if !deleteOk then
      let mR := setDay st1.tasksByDate selectedISO snapshot
      { state := { st1 with tasksByDate := mR },
        events := [Evt.locTasks, Evt.remDelete, Evt.locTasks] }
    else
      { state := st1,
        events := [Evt.locTasks, Evt.remDelete],
        staged := some { user_id := uid, date := deletedTask.date, title := deletedTask.title, category := deletedTask.category, done := deletedTask.done, priority := deletedTask.priority, sort_order := deletedTask.sort_order } }

/-- Modelled from the spec (§6, Sync Gateway contract — the backend is an
external collaborator): `insertTasks` returns the row with a server-assigned
`id` and creation timestamp; columns absent from the draft
(`repeat_every_days`, `repeat_until`, `notes`) come back null. -/
def serverInsertRow (r : UndoInsertRow) (newId : String) (ts : String) : DbTask :=
  { id := newId, user_id := r.user_id, date := r.date, title := r.title,
    category := r.category, done := r.done, created_at := some ts,
    priority := r.priority, repeat_every_days := none, repeat_until := none,
    sort_order := r.sort_order, notes := none }

/-- The compensating action staged by `deleteTask` (`App.tsx` line 1629):
insert the saved draft remotely and append the returned row to its day
bucket. -/
def runDeleteUndo (st : AppState) (r : UndoInsertRow) (newId ts : String) : AppState :=
  let row := serverInsertRow r newId ts
  { st with tasksByDate := setDay st.tasksByDate row.date (lookupDay st.tasksByDate row.date ++ [row]) }

/-- `moveTask` (`App.tsx` line 1799): optimistic move to the target day with
a time-derived key, remote update, full reload on failure. -/
def moveTaskRun (st : AppState) (fromISO toISO : ISODate) (taskId : String)
    (now : Int) (updateOk : Bool) (env : RemoteEnv) : RunOut :=
  if fromISO = "" ∨ toISO = "" ∨ fromISO = toISO then { state := st, events := [] }
  else
    match (lookupDay st.tasksByDate fromISO).find? (fun t => t.id == taskId) with
    | none => { state := st, events := [] }
    | some task =>
      let newSort := now
      let a := lookupDay st.tasksByDate fromISO
      let b := lookupDay st.tasksByDate toISO
      let nextFrom := a.filter (fun t => !(t.id == taskId))
      let nextTo := b ++ [{ task with date := toISO, sort_order := newSort }]
      let m := setDay (setDay st.tasksByDate fromISO nextFrom) toISO nextTo
      let m2 := if nextFrom.isEmpty then eraseDay m fromISO else m
      let st1 := { st with tasksByDate := m2 }
      if updateOk then { state := st1, events := [Evt.locTasks, Evt.remUpdate] }
      else
        let l := loadVisibleTasksRun st1 env
        { state := l.state, events := [Evt.locTasks, Evt.remUpdate] ++ l.events }

/-! ## Reordering within a day (`applyReorderWithinDay`, `renormalizeGroup`) -/

inductive ReorderPos where
  | above
  | below
deriving Repr, DecidableEq

/-- JavaScript array indexing `l[i]` where `i` may be `-1` (then `undefined`). -/
def getAt? (l : List DbTask) (i : Int) : Option DbTask :=
  if i < 0 then none else l.get? i.toNat

/-- The neighbor extraction of `applyReorderWithinDay` (`App.tsx` lines
1749-1756 and 1768-1775): locate the reference task in the partition list
without the moved task, insert above or below it, and read the `sort_order`
of the immediate predecessor and successor. -/
def reorderNeighbors (groupWithout : List DbTask) (overId : String) (pos : ReorderPos) :
    Option Int × Option Int :=
  let baseIdx : Int := groupWithout.findIdx (fun t => t.id == overId)
  let insertIdx : Int := if pos = ReorderPos.above then baseIdx else baseIdx + 1
  ((getAt? groupWithout (insertIdx - 1)).map (fun t => t.sort_order),
   (getAt? groupWithout insertIdx).map (fun t => t.sort_order))

/-- `new Map(updates).get(id)` over the renormalization updates. -/
def lookupAssoc (l : List (String × Int)) (k : String) : Option Int :=
  (l.find? (fun p => p.1 == k)).map (fun p => p.2)

/-- Apply the renormalization update map (`m.has(t.id) ? {...t, sort_order: m.get(t.id)} : t`). -/
def renormApply (updates : List (String × Int)) (t : DbTask) : DbTask :=
  match lookupAssoc updates t.id with
  | some so => { t with sort_order := so }
  | none => t

/-- `renormalizeGroup` (`App.tsx` line 1707): reassign every task of the
`(done, priority)` partition of the selected day evenly spaced keys
`(i+1)*1000` in display order (locally, then one remote update per task). -/
def renormalizeGroupRun (st : AppState) (iso : ISODate) (gdone : Bool) (gprio : Int) : RunOut :=
  let day := sortDay (lookupDay st.tasksByDate iso)
  let group := day.filter (fun t => inGroupB gdone gprio t)
  let updates := group.mapIdx (fun i t => (t.id, ((i : Int) + 1) * 1000))
  let newDay := (lookupDay st.tasksByDate iso).map (renormApply updates)
  { state := { st with tasksByDate := setDay st.tasksByDate iso newDay },
    events := Evt.locTasks :: updates.map (fun _ => Evt.remUpdate) }

/-- The tail of `applyReorderWithinDay` (lines 1786-1797): write the computed
key to the moved task locally, then issue the remote update; on failure the
whole visible range is reloaded. -/
def reorderFinish (st : AppState) (evs : List Evt) (iso taskId : String)
    (newOrder : Int) (updateOk : Bool) (env : RemoteEnv) : RunOut :=
  let day1 := (lookupDay st.tasksByDate iso).map
    (fun t => if t.id == taskId then { t with sort_order := newOrder } else t)
  let st1 := { st with tasksByDate := setDay st.tasksByDate iso day1 }
  if updateOk then { state := st1, events := evs ++ [Evt.locTasks, Evt.remUpdate] }
  else
    let l := loadVisibleTasksRun st1 env
    { state := l.state, events := evs ++ [Evt.locTasks, Evt.remUpdate] ++ l.events }

/-- The inner four-way key rule used after renormalization (`App.tsx` lines
1777-1780). -/
def reorderKeyBasic (p n : Option Int) : Int :=
  match p, n with
  | none, none => 1000
  | none, some nv => nv - 1000
  | some pv, none => pv + 1000
  | some pv, some nv => Int.fdiv (pv + nv) 2

/-- `applyReorderWithinDay` (`App.tsx` line 1727): guards, partition lookup,
neighbor extraction, fractional-key computation with the renormalization
fallback, local write and remote update. -/
def applyReorderRun (st : AppState) (iso taskId overId : String) (pos : ReorderPos)
    (updateOk : Bool) (env : RemoteEnv) : RunOut :=
  if taskId = "" ∨ overId = "" ∨ taskId = overId then { state := st, events := [] }
  else
    let day := sortDay (lookupDay st.tasksByDate iso)
    match day.find? (fun t => t.id == taskId), day.find? (fun t => t.id == overId) with
    | some moved, some over =>
      if !(doneNum moved.done == doneNum over.done && prioOf moved == prioOf over) then
        { state := st, events := [] }
      else
        let gdone := moved.done
        let gprio := prioOf moved
        let group := day.filter (fun t => inGroupB gdone gprio t)
        if !(group.any (fun t => t.id == taskId)) || !(group.any (fun t => t.id == overId)) then
          { state := st, events := [] }
        else
          let groupWithout := group.filter (fun t => !(t.id == taskId))
          match reorderNeighbors groupWithout overId pos with
          | (none, none) => reorderFinish st [] iso taskId 1000 updateOk env
          | (none, some nv) => reorderFinish st [] iso taskId (nv - 1000) updateOk env
          | (some pv, none) => reorderFinish st [] iso taskId (pv + 1000) updateOk env
          | (some pv, some nv) =>
            if nv - pv ≤ 1 then
              let r := renormalizeGroupRun st iso gdone gprio
              -- `getSortedDayTasks` (line 1765) closes over the render-captured
              -- `tasksByDate` useState snapshot, so this re-read sees the
              -- pre-renormalization keys, not `r.state` (stale closure).
              let day2 := sortDay (lookupDay st.tasksByDate iso)
              let group2 := day2.filter (fun t => inGroupB gdone gprio t)
              let group2Without := group2.filter (fun t => !(t.id == taskId))
              let pn2 := reorderNeighbors group2Without overId pos
              reorderFinish r.state r.events iso taskId (reorderKeyBasic pn2.1 pn2.2) updateOk env
            else reorderFinish st [] iso taskId (Int.fdiv (pv + nv) 2) updateOk env
    | _, _ => { state := st, events := [] }

/-! ## Category cascade (`deleteCategory`, `renameCategory`) -/

/-- `deleteCategory` (`App.tsx` line 1836): remote bulk nullify first (its
result is discarded by the source), then the optimistic local cascade and the
removal from the category list.  `updateOk` marks whether the remote call
succeeded; the handler behaves identically either way. -/
def deleteCategoryRun (st : AppState) (category : String) (updateOk : Bool) : RunOut :=
  let cat := normalizeCategory category
  if cat = "" then { state := st, events := [] }
  else
    let m := st.tasksByDate.map (fun p =>
      (p.1, p.2.map (fun t => if t.category == some cat then { t with category := none } else t)))
    { state := { tasksByDate := m, categories := st.categories.filter (fun c => !(c == cat)) },
      events := [Evt.remUpdate, Evt.locTasks, Evt.locCats] }

/-- `renameCategory` (`App.tsx` line 1879): normalize both names, bail out on
empty or equal names, issue the remote bulk update (when it succeeds the
remote table is rewritten), then reload the visible range. -/
def renameCategoryRun (st : AppState) (oldName newNameRaw : String)
    (updateOk : Bool) (env : RemoteEnv) : RunOut :=
  let cmFrom := normalizeCategory oldName
  let cmTo := normalizeCategory newNameRaw
  if cmFrom = "" ∨ cmTo = "" ∨ cmFrom = cmTo then { state := st, events := [] }
  else
    let table2 := if updateOk then
        env.table.map (fun r =>
          if r.user_id == env.uid && r.category == some cmFrom then
            { r with category := some cmTo }
          else r)
      else env.table
    let l := loadVisibleTasksRun st { env with table := table2 }
    { state := l.state, events := [Evt.remUpdate] ++ l.events }

/-! ## Adding tasks (`addTask`) -/

/-- A draft row sent by `addTask` (`App.tsx` line 1529); `notes` is not part
of the insert payload. -/
structure AddDraft where
  user_id : String
  date : String
  title : String
  category : Option String
  done : Bool
  priority : Int
  repeat_every_days : Option Int
  repeat_until : Option String
  sort_order : Int
deriving Repr, DecidableEq

/-- The insert payload of one `addTask` call (`App.tsx` lines 1507-1539).
`now` is `Math.floor(Date.now() / 1000)` at the time of the call, and
`addDays iso n` abstracts the calendar arithmetic
`parseISODate` / `setDate(+n)` / `toISODate` (a non-goal of the spec):
the i-th recurrence sibling lives `repeatDays * i` days later and gets key
`now + i`. -/
def addTaskDates (selectedISO : ISODate) (repeatDays : Option Nat)
    (addDays : ISODate → Nat → ISODate) : List ISODate :=
  selectedISO :: (match repeatDays with
    | some rd => (List.range (min (90 / rd) 30)).map (fun i => addDays selectedISO (rd * (i + 1)))
    | none => [])

def addTaskInserts (uid : String) (selectedISO : ISODate) (titleRaw : String)
    (newCategory : String) (highPriority : Bool) (newRepeatDays : Nat)
    (now : Int) (addDays : ISODate → Nat → ISODate) : List AddDraft :=
  let title := jsTrim titleRaw
  if title = "" then []
  else
    let cat : Option String :=
      if newCategory = "__none__" then none else some (normalizeCategory newCategory)
    let repeatDays : Option Nat := if newRepeatDays > 0 then some newRepeatDays else none
    (addTaskDates selectedISO repeatDays addDays).mapIdx (fun i date =>
      { user_id := uid, date := date, title := title, category := cat, done := false,
        priority := if highPriority then 2 else 1, repeat_every_days := repeatDays.map (fun n => (n : Int)),
        repeat_until := none, sort_order := now + (i : Int) })

/-- The local store update of `addTask` (lines 1549-1556): append each
returned row to its day bucket. -/
def addTaskApplyRows (m : StoreMap) (rows : List DbTask) : StoreMap :=
  rows.foldl (fun m r => setDay m r.date (lookupDay m r.date ++ [r])) m

/-! ## The undo toast (`showUndoToast`, `dismissToast`, `App.tsx` line 1155) -/

/-- The single pending toast: message plus the compensating action. -/
structure UndoToastRec (α : Type) where
  message : String
  undo : α
deriving Repr, DecidableEq

/-- `showUndoToast`: clear any existing toast (its timer is cancelled, its
action never runs) and install the new one. -/
def showUndoToastModel {α : Type} (_s : Option (UndoToastRec α)) (message : String)
    (undo : α) : Option (UndoToastRec α) :=
  some { message := message, undo := undo }

/-- The `setTimeout(() => setUndoToast(null), 5000)` delay installed by
`showUndoToast` — the same constant for every action type. -/
def armTimeoutMs {α : Type} (_message : String) (_undo : α) : Nat := 5000

/-- The timeout firing: the pending action is discarded unrun. -/
def undoTimeoutFire {α : Type} (_s : Option (UndoToastRec α)) : Option (UndoToastRec α) :=
  none

/-- `dismissToast`: discard without running. -/
def dismissToastModel {α : Type} (_s : Option (UndoToastRec α)) : Option (UndoToastRec α) :=
  none

/-- Clicking "Rückgängig" (`App.tsx` line 3587) runs the pending compensating
action; with no pending toast nothing runs.  The result lists the actions
executed. -/
def invokeUndoModel {α : Type} (s : Option (UndoToastRec α)) : List α :=
  match s with
  | some r => [r.undo]
  | none => []

/-! ## Unique-id helper lemmas -/

theorem eq_of_mem_of_id_nodup {l : List DbTask}
    (hn : (l.map (fun t => t.id)).Nodup) {a b : DbTask}
    (ha : a ∈ l) (hb : b ∈ l) (hid : a.id = b.id) : a = b :=
  List.inj_on_of_nodup_map hn ha hb hid

theorem find?_id_eq_some_of_mem {l : List DbTask}
    (hn : (l.map (fun t => t.id)).Nodup) {a : DbTask} {x : String}
    (ha : a ∈ l) (hid : a.id = x) : l.find? (fun t => t.id == x) = some a := by
  induction l with
  | nil => cases ha
  | cons h tl ih =>
    by_cases hh : h.id = x
    · rw [List.find?_cons_of_pos _ (by simp [hh])]
      have : h = a := eq_of_mem_of_id_nodup hn (List.mem_cons_self h tl) ha (hh.trans hid.symm)
      rw [this]
    · rw [List.find?_cons_of_neg _ (by simp [hh])]
      rcases List.mem_cons.mp ha with rfl | ha'
      · exact absurd hid hh
      · exact ih (by
          have := hn
          rw [List.map_cons] at this
          exact (List.nodup_cons.mp this).2) ha'

/-! ## Concrete demonstration objects for witnesses and counterexamples -/

def demoTask : DbTask :=
  { id := "t1", user_id := "u", date := "2026-01-01", title := "Aufgabe",
    category := some "Arbeit", done := false, created_at := none, priority := 1,
    repeat_every_days := none, repeat_until := none, sort_order := 1000,
    notes := some "remember" }

def demoState : AppState :=
  { tasksByDate := [("2026-01-01", [demoTask])], categories := ["Arbeit"] }

def demoRow : UndoInsertRow :=
  { user_id := "u", date := "2026-01-01", title := "Aufgabe",
    category := some "Arbeit", done := false, priority := 1, sort_order := 1000 }

/-! ## C5 — the undo manager is a single-slot, last-wins design -/

/-- C5: the Undo Manager holds at most one pending action.  Arming twice in
succession and then invoking the undo runs only the second action's
compensating effect, never the first's; the timeout installed by every arming
is the same 5000 ms constant, and its firing discards the pending action. -/
theorem undo_single_slot {α : Type} (s : Option (UndoToastRec α))
    (m1 m2 : String) (a1 a2 : α) (h : a1 ≠ a2) :
    invokeUndoModel (showUndoToastModel (showUndoToastModel s m1 a1) m2 a2) = [a2] ∧
    a1 ∉ invokeUndoModel (showUndoToastModel (showUndoToastModel s m1 a1) m2 a2) ∧
    (∀ (msg : String) (u : α), armTimeoutMs msg u = 5000) ∧
    (∀ (s2 : Option (UndoToastRec α)), undoTimeoutFire s2 = none) := by
  refine ⟨rfl, ?_, fun _ _ => rfl, fun _ => rfl⟩
  simp only [invokeUndoModel, showUndoToastModel, List.mem_singleton]
  exact h

/-- Witness for C5 at a concrete instance. -/
theorem undo_single_slot_witness :
    (0 : Nat) ≠ 1 ∧
      (invokeUndoModel (showUndoToastModel (showUndoToastModel (none : Option (UndoToastRec Nat)) "erste" 0) "zweite" 1) = [1] ∧
       (0 : Nat) ∉ invokeUndoModel (showUndoToastModel (showUndoToastModel (none : Option (UndoToastRec Nat)) "erste" 0) "zweite" 1) ∧
       (∀ (msg : String) (u : Nat), armTimeoutMs msg u = 5000) ∧
       (∀ (s2 : Option (UndoToastRec Nat)), undoTimeoutFire s2 = none)) :=
  ⟨by decide, undo_single_slot none "erste" "zweite" 0 1 (by decide)⟩

/-! ## C9 — append keys derived from the clock -/

/-- C9 counterexample: two `addTask` calls in the same wall-clock second
(`Math.floor(Date.now()/1000)` identical) assign the same `sort_order` to
both tasks, so the later append does not receive a strictly greater key. -/
theorem addTask_rapid_appends_equal_keys :
    ((addTaskInserts "u" "2026-01-01" "erste" "__none__" false 0 100 (fun iso _ => iso)).map
      (fun r => r.sort_order) = [100]) ∧
    ((addTaskInserts "u" "2026-01-01" "zweite" "__none__" false 0 100 (fun iso _ => iso)).map
      (fun r => r.sort_order) = [100]) ∧
    ¬ ((100 : Int) > 100) := by
  refine ⟨by decide, by decide, by decide⟩

theorem addTaskInserts_sort_order (uid : String) (iso : ISODate) (titleRaw c : String)
    (hp : Bool) (rd : Nat) (now : Int) (f : ISODate → Nat → ISODate)
    {i : Nat} (hi : i < (addTaskInserts uid iso titleRaw c hp rd now f).length) :
    ((addTaskInserts uid iso titleRaw c hp rd now f).get ⟨i, hi⟩).sort_order = now + (i : Int) := by
  by_cases ht : jsTrim titleRaw = ""
  · simp only [addTaskInserts, ht, if_pos] at hi
    simp at hi
  · rw [List.get_eq_getElem]
    simp only [addTaskInserts, ht, if_neg, if_false]
    simp [List.getElem_mapIdx]

/-- C9 amended: sibling keys inside one `addTask` call strictly increase with
the sibling index, and a call whose clock value exceeds the earlier call's
clock value plus the earlier call's row count assigns strictly greater keys
than every row of the earlier call.  (Two calls within the same second, or
closer than the earlier call's recurrence expansion, can violate strictness.) -/
theorem addTask_keys_monotone (uid1 uid2 : String) (iso1 iso2 : ISODate)
    (t1R t2R c1 c2 : String) (hp1 hp2 : Bool) (rd1 rd2 : Nat) (now1 now2 : Int)
    (f1 f2 : ISODate → Nat → ISODate)
    (hgap : now1 + ((addTaskInserts uid1 iso1 t1R c1 hp1 rd1 now1 f1).length : Int) ≤ now2) :
    ((addTaskInserts uid1 iso1 t1R c1 hp1 rd1 now1 f1).Pairwise
      (fun a b => a.sort_order < b.sort_order)) ∧
    (∀ a ∈ addTaskInserts uid1 iso1 t1R c1 hp1 rd1 now1 f1,
      ∀ b ∈ addTaskInserts uid2 iso2 t2R c2 hp2 rd2 now2 f2,
        a.sort_order < b.sort_order) := by
  constructor
  · rw [List.pairwise_iff_getElem]
    intro i j hi hj hij
    have ha := addTaskInserts_sort_order uid1 iso1 t1R c1 hp1 rd1 now1 f1 hi
    have hb := addTaskInserts_sort_order uid1 iso1 t1R c1 hp1 rd1 now1 f1 hj
    rw [List.get_eq_getElem] at ha hb
    rw [ha, hb]
    omega
  · intro a hamem b hbmem
    obtain ⟨i, hi, hia⟩ := List.mem_iff_getElem.mp hamem
    obtain ⟨j, hj, hjb⟩ := List.mem_iff_getElem.mp hbmem
    have ha := addTaskInserts_sort_order uid1 iso1 t1R c1 hp1 rd1 now1 f1 hi
    have hb := addTaskInserts_sort_order uid2 iso2 t2R c2 hp2 rd2 now2 f2 hj
    rw [List.get_eq_getElem] at ha hb
    rw [hia] at ha
    rw [hjb] at hb
    rw [ha, hb]
    omega

/-- Witness for the amended C9 at a concrete instance. -/
theorem addTask_keys_monotone_witness :
    ((100 : Int) + ((addTaskInserts "u" "2026-01-01" "erste" "__none__" false 0 100 (fun iso _ => iso)).length : Int) ≤ 200) ∧
    (((addTaskInserts "u" "2026-01-01" "erste" "__none__" false 0 100 (fun iso _ => iso)).Pairwise
        (fun a b => a.sort_order < b.sort_order)) ∧
      (∀ a ∈ addTaskInserts "u" "2026-01-01" "erste" "__none__" false 0 100 (fun iso _ => iso),
        ∀ b ∈ addTaskInserts "u" "2026-01-02" "zweite" "__none__" false 0 200 (fun iso _ => iso),
          a.sort_order < b.sort_order)) :=
  ⟨by decide, addTask_keys_monotone "u" "u" "2026-01-01" "2026-01-02" "erste" "zweite"
    "__none__" "__none__" false false 0 0 100 200 (fun iso _ => iso) (fun iso _ => iso)
    (by decide)⟩

/-! ## C7 — what the delete-undo actually restores -/

/-- C7 counterexample: the undo draft staged by `deleteTask` omits the
`notes` (and recurrence) columns, so invoking the staged undo re-inserts a
task whose `notes` field is null even though the deleted task carried notes —
"every other field except id matches" fails. -/
theorem deleteTask_undo_drops_notes :
    (deleteTaskRun demoState "2026-01-01" "u" "t1" true).staged = some demoRow ∧
    (serverInsertRow demoRow "t9" "2026-02-02T00:00:00Z").notes = none ∧
    demoTask.notes = some "remember" ∧
    (serverInsertRow demoRow "t9" "2026-02-02T00:00:00Z").notes ≠ demoTask.notes := by
  refine ⟨by decide, rfl, rfl, by decide⟩

/-- C7 amended: invoking the staged undo before the timeout re-inserts a task
whose `title`, `category`, `done`, `priority`, `date` and `sort_order` equal
those of the deleted task (with a fresh id); the recurrence fields and the
notes are not restored — the re-insert omits them, so they come back null —
and the creation timestamp is server-assigned. -/
theorem deleteTask_undo_restores_core_fields (st : AppState) (selectedISO : ISODate)
    (uid taskId : String) (deletedTask : DbTask)
    (hfind : (lookupDay st.tasksByDate selectedISO).find? (fun t => t.id == taskId) =
      some deletedTask)
    (st2 : AppState) (newId ts : String) :
    ∃ r, (deleteTaskRun st selectedISO uid taskId true).staged = some r ∧
      (serverInsertRow r newId ts) ∈
        lookupDay (runDeleteUndo st2 r newId ts).tasksByDate deletedTask.date ∧
      (serverInsertRow r newId ts).title = deletedTask.title ∧
      (serverInsertRow r newId ts).category = deletedTask.category ∧
      (serverInsertRow r newId ts).done = deletedTask.done ∧
      (serverInsertRow r newId ts).priority = deletedTask.priority ∧
      (serverInsertRow r newId ts).date = deletedTask.date ∧
      (serverInsertRow r newId ts).sort_order = deletedTask.sort_order ∧
      (serverInsertRow r newId ts).repeat_every_days = none ∧
      (serverInsertRow r newId ts).repeat_until = none ∧
      (serverInsertRow r newId ts).notes = none := by
  refine ⟨⟨uid, deletedTask.date, deletedTask.title, deletedTask.category, deletedTask.done, deletedTask.priority, deletedTask.sort_order⟩, ?_, ?_, rfl, rfl, rfl, rfl, rfl, rfl, rfl, rfl, rfl⟩
  · unfold deleteTaskRun
    dsimp only
    rw [hfind]
    simp
  · unfold runDeleteUndo serverInsertRow
    dsimp only
    rw [lookupDay_setDay_self]
    exact List.mem_append_right _ (List.mem_singleton.mpr rfl)

/-- Witness for the amended C7 at a concrete instance. -/
theorem deleteTask_undo_restores_core_fields_witness :
    ((lookupDay demoState.tasksByDate "2026-01-01").find? (fun t => t.id == "t1") =
      some demoTask) ∧
    ∃ r, (deleteTaskRun demoState "2026-01-01" "u" "t1" true).staged = some r ∧
      (serverInsertRow r "t9" "ts") ∈
        lookupDay (runDeleteUndo demoState r "t9" "ts").tasksByDate demoTask.date ∧
      (serverInsertRow r "t9" "ts").title = demoTask.title ∧
      (serverInsertRow r "t9" "ts").category = demoTask.category ∧
      (serverInsertRow r "t9" "ts").done = demoTask.done ∧
      (serverInsertRow r "t9" "ts").priority = demoTask.priority ∧
      (serverInsertRow r "t9" "ts").date = demoTask.date ∧
      (serverInsertRow r "t9" "ts").sort_order = demoTask.sort_order ∧
      (serverInsertRow r "t9" "ts").repeat_every_days = none ∧
      (serverInsertRow r "t9" "ts").repeat_until = none ∧
      (serverInsertRow r "t9" "ts").notes = none :=
  ⟨by decide, deleteTask_undo_restores_core_fields demoState "2026-01-01" "u" "t1" demoTask
    (by decide) demoState "t9" "ts"⟩

/-! ## C4 — order of local application vs. remote call -/

def isLocEvt : Evt → Bool
  | Evt.locTasks => true
  | Evt.locCats => true
  | _ => false

/-- `remAfterLoc seen es` is true when every remote call in `es` is preceded
by some local state write (`seen` records whether one was already seen). -/
def remAfterLoc (seen : Bool) : List Evt → Bool
  | [] => true
  | e :: es => if isLocEvt e then remAfterLoc true es else seen && remAfterLoc seen es

theorem remAfterLoc_true (es : List Evt) : remAfterLoc true es = true := by
  induction es with
  | nil => rfl
  | cons e es ih =>
    unfold remAfterLoc
    split <;> simp [ih]

theorem remAfterLoc_locTasks (es : List Evt) :
    remAfterLoc false (Evt.locTasks :: es) = true := by
  unfold remAfterLoc
  rw [if_pos (show isLocEvt Evt.locTasks = true from rfl)]
  exact remAfterLoc_true es

theorem remAfterLoc_locCats (es : List Evt) :
    remAfterLoc false (Evt.locCats :: es) = true := by
  unfold remAfterLoc
  rw [if_pos (show isLocEvt Evt.locCats = true from rfl)]
  exact remAfterLoc_true es

/-- C4 counterexample: for the category-delete mutation the remote bulk
update is issued before any local Store write — the event trace of
`deleteCategory` begins with the remote call, so the claim's "the remote call
never precedes the local Store update" fails for this mutation type. -/
theorem deleteCategory_remote_precedes_local :
    (deleteCategoryRun demoState "Arbeit" false).events =
      [Evt.remUpdate, Evt.locTasks, Evt.locCats] ∧
    remAfterLoc false (deleteCategoryRun demoState "Arbeit" false).events = false := by
  exact ⟨by decide, by decide⟩

set_option maxHeartbeats 2000000 in
/-- C4 amended: toggle-done, edit-fields, delete, move and reorder apply the
mutation to the Store before any remote call of the handler is issued (every
remote event in their traces is preceded by a local write, including the
renormalization batch inside reorder); category-delete and category-rename
instead issue their remote bulk update first — any non-empty trace of theirs
begins with the remote call. -/
theorem local_before_remote_per_op :
    (∀ st iso tid ok, remAfterLoc false (toggleTaskRun st iso tid ok).events = true) ∧
    (∀ st iso tid tit cat hp nts ok,
      remAfterLoc false (saveEditTaskRun st iso tid tit cat hp nts ok).events = true) ∧
    (∀ st iso uid tid ok, remAfterLoc false (deleteTaskRun st iso uid tid ok).events = true) ∧
    (∀ st f t tid now ok env, remAfterLoc false (moveTaskRun st f t tid now ok env).events = true) ∧
    (∀ st iso tid oid pos ok env,
      remAfterLoc false (applyReorderRun st iso tid oid pos ok env).events = true) ∧
    (∀ st cat ok, (deleteCategoryRun st cat ok).events = [] ∨
      (deleteCategoryRun st cat ok).events.head? = some Evt.remUpdate) ∧
    (∀ st o n ok env, (renameCategoryRun st o n ok env).events = [] ∨
      (renameCategoryRun st o n ok env).events.head? = some Evt.remUpdate) := by
  refine ⟨?_, ?_, ?_, ?_, ?_, ?_, ?_⟩
  · intro st iso tid ok
    unfold toggleTaskRun
    dsimp only
    repeat' first
      | exact remAfterLoc_locTasks _
      | exact remAfterLoc_locCats _
      | (simp only [List.cons_append, List.nil_append]; exact remAfterLoc_locTasks _)
      | (simp only [List.cons_append, List.nil_append]; exact remAfterLoc_locCats _)
      | split
      | rfl
  · intro st iso tid tit cat hp nts ok
    unfold saveEditTaskRun
    dsimp only
    repeat' first
      | exact remAfterLoc_locTasks _
      | exact remAfterLoc_locCats _
      | (simp only [List.cons_append, List.nil_append]; exact remAfterLoc_locTasks _)
      | (simp only [List.cons_append, List.nil_append]; exact remAfterLoc_locCats _)
      | split
      | rfl
  · intro st iso uid tid ok
    unfold deleteTaskRun
    dsimp only
    repeat' first
      | exact remAfterLoc_locTasks _
      | exact remAfterLoc_locCats _
      | (simp only [List.cons_append, List.nil_append]; exact remAfterLoc_locTasks _)
      | (simp only [List.cons_append, List.nil_append]; exact remAfterLoc_locCats _)
      | split
      | rfl
  · intro st f t tid now ok env
    unfold moveTaskRun loadVisibleTasksRun
    dsimp only
    repeat' first
      | exact remAfterLoc_locTasks _
      | exact remAfterLoc_locCats _
      | (simp only [List.cons_append, List.nil_append]; exact remAfterLoc_locTasks _)
      | (simp only [List.cons_append, List.nil_append]; exact remAfterLoc_locCats _)
      | split
      | rfl
  · intro st iso tid oid pos ok env
    unfold applyReorderRun reorderFinish renormalizeGroupRun loadVisibleTasksRun
    dsimp only
    repeat' first
      | exact remAfterLoc_locTasks _
      | exact remAfterLoc_locCats _
      | (simp only [List.cons_append, List.nil_append]; exact remAfterLoc_locTasks _)
      | (simp only [List.cons_append, List.nil_append]; exact remAfterLoc_locCats _)
      | split
      | rfl
  · intro st cat ok
    unfold deleteCategoryRun
    dsimp only
    split
    · exact Or.inl rfl
    · exact Or.inr rfl
  · intro st o n ok env
    unfold renameCategoryRun loadVisibleTasksRun
    dsimp only
    split
    · exact Or.inl rfl
    · split
      · exact Or.inr rfl
      · exact Or.inr rfl

/-! ## C2 — rollback on remote failure -/

theorem find?_eraseDay (m : StoreMap) (iso iso' : ISODate) (h : iso' ≠ iso) :
    (eraseDay m iso).find? (fun p => p.1 == iso') = m.find? (fun p => p.1 == iso') := by
  induction m with
  | nil => rfl
  | cons p m ih =>
    unfold eraseDay at ih ⊢
    by_cases hp : p.1 == iso
    · rw [List.filter_cons_of_neg (by simp [hp])]
      have hq2 : (p.1 == iso') = false := by
        have := beq_iff_eq.mp hp
        simp [this, beq_iff_eq]
        exact fun hh => h hh.symm
      conv_rhs => rw [List.find?]
      rw [hq2]
      exact ih
    · rw [List.filter_cons_of_pos (by simp [hp])]
      simp only [List.find?]
      cases hq : (p.1 == iso') with
      | true => rfl
      | false => exact ih

theorem lookupDay_eraseDay_other (m : StoreMap) (iso iso' : ISODate) (h : iso' ≠ iso) :
    lookupDay (eraseDay m iso) iso' = lookupDay m iso' := by
  unfold lookupDay
  rw [find?_eraseDay m iso iso' h]

theorem hasDay_eraseDay_other (m : StoreMap) (iso iso' : ISODate) (h : iso' ≠ iso) :
    hasDay (eraseDay m iso) iso' = hasDay m iso' := by
  unfold hasDay
  rw [find?_eraseDay m iso iso' h]

/-- C2 counterexample: for the category-delete mutation the handler ignores
the remote result entirely — with the remote bulk update failing, the
optimistic cascade is still applied, and the Store is not restored to the
pre-mutation state. -/
theorem deleteCategory_no_rollback_on_failure :
    lookupDay (deleteCategoryRun demoState "Arbeit" false).state.tasksByDate "2026-01-01" =
      [{ demoTask with category := none }] ∧
    lookupDay demoState.tasksByDate "2026-01-01" = [demoTask] ∧
    ¬ storeEqv (deleteCategoryRun demoState "Arbeit" false).state.tasksByDate
        demoState.tasksByDate := by
  refine ⟨by decide, by decide, ?_⟩
  intro hEq
  have h2 := hEq.2 "2026-01-01"
  revert h2
  decide

/-- C2 amended, part of the proof: the failure path of `toggleTask` restores
the day list pointwise. -/
theorem toggleTask_rollback (st : AppState) (iso : ISODate) (taskId : String)
    (cur : DbTask)
    (hfind : (lookupDay st.tasksByDate iso).find? (fun t => t.id == taskId) = some cur)
    (hids : ((lookupDay st.tasksByDate iso).map (fun t => t.id)).Nodup) :
    storeEqv (toggleTaskRun st iso taskId false).state.tasksByDate st.tasksByDate ∧
    (toggleTaskRun st iso taskId false).state.categories = st.categories := by
  have hcur : cur ∈ lookupDay st.tasksByDate iso := List.mem_of_find?_eq_some hfind
  have hcurid := List.find?_some hfind
  simp only [beq_iff_eq] at hcurid
  have hnn : lookupDay st.tasksByDate iso ≠ [] := by
    intro h
    rw [h] at hcur
    cases hcur
  have hhas : hasDay st.tasksByDate iso = true := hasDay_of_lookupDay_ne_nil hnn
  unfold toggleTaskRun
  dsimp only
  rw [hfind]
  dsimp only
  rw [if_neg (by simp)]
  dsimp only
  rw [lookupDay_setDay_self]
  rw [List.map_map]
  have hmap : (lookupDay st.tasksByDate iso).map
      ((fun t => if t.id == taskId then { t with done := !(!cur.done) } else t) ∘
        (fun t => if t.id == taskId then { t with done := !cur.done } else t)) =
      lookupDay st.tasksByDate iso := by
    have : ∀ t ∈ lookupDay st.tasksByDate iso,
        ((fun t => if t.id == taskId then { t with done := !(!cur.done) } else t) ∘
          (fun t => if t.id == taskId then { t with done := !cur.done } else t)) t = t := by
      intro t ht
      by_cases hid : (t.id == taskId) = true
      · have hteq : t = cur := eq_of_mem_of_id_nodup hids ht hcur
          ((beq_iff_eq.mp hid).trans hcurid.symm)
        simp only [Function.comp_apply, hid, if_pos]
        rw [hteq]
        simp only [Bool.not_not]
      · simp only [Function.comp_apply, hid]
        rw [if_neg (by simpa using hid), if_neg (by simpa using hid)]
    rw [List.map_congr_left this]
    exact List.map_id' _
  rw [hmap]
  refine ⟨⟨fun iso' => ?_, fun iso' => ?_⟩, rfl⟩
  · by_cases hi : iso' = iso
    · subst hi
      rw [hasDay_setDay_self, hhas]
    · rw [hasDay_setDay_other _ _ _ _ hi, hasDay_setDay_other _ _ _ _ hi]
  · by_cases hi : iso' = iso
    · subst hi
      rw [lookupDay_setDay_self]
    · rw [lookupDay_setDay_other _ _ _ _ hi, lookupDay_setDay_other _ _ _ _ hi]

/-- C2 amended, part of the proof: the failure path of `saveEditTask`
restores the day list pointwise (the category list may keep a name added by
`ensureCategory`; the Store proper is the task map). -/
theorem saveEditTask_rollback (st : AppState) (iso : ISODate)
    (tid tit cat : String) (hp : Bool) (nts : String) (before : DbTask)
    (htit : jsTrim tit ≠ "")
    (hfind : (lookupDay st.tasksByDate iso).find? (fun t => t.id == tid) = some before)
    (hids : ((lookupDay st.tasksByDate iso).map (fun t => t.id)).Nodup) :
    storeEqv (saveEditTaskRun st iso tid tit cat hp nts false).state.tasksByDate
      st.tasksByDate := by
  have hbef : before ∈ lookupDay st.tasksByDate iso := List.mem_of_find?_eq_some hfind
  have hbefid := List.find?_some hfind
  simp only [beq_iff_eq] at hbefid
  have hnn : lookupDay st.tasksByDate iso ≠ [] := by
    intro h
    rw [h] at hbef
    cases hbef
  have hhas : hasDay st.tasksByDate iso = true := hasDay_of_lookupDay_ne_nil hnn
  unfold saveEditTaskRun
  rw [if_neg htit]
  dsimp only
  rw [hfind]
  dsimp only
  rw [if_neg (by simp)]
  dsimp only
  rw [lookupDay_setDay_self]
  rw [List.map_map]
  have hmap : (lookupDay st.tasksByDate iso).map
      ((fun t => if t.id == tid then before else t) ∘
        (fun t => if t.id == tid then { t with title := jsTrim tit, category := if cat = "__none__" then none else some (normalizeCategory cat), priority := if hp then 2 else 1, notes := if jsTrim nts = "" then none else some (jsTrim nts) } else t)) =
      lookupDay st.tasksByDate iso := by
    have hpt : ∀ t ∈ lookupDay st.tasksByDate iso,
        ((fun t => if t.id == tid then before else t) ∘
          (fun t => if t.id == tid then { t with title := jsTrim tit, category := if cat = "__none__" then none else some (normalizeCategory cat), priority := if hp then 2 else 1, notes := if jsTrim nts = "" then none else some (jsTrim nts) } else t)) t = t := by
      intro t ht
      by_cases hid : (t.id == tid) = true
      · have hteq : t = before := eq_of_mem_of_id_nodup hids ht hbef
          ((beq_iff_eq.mp hid).trans hbefid.symm)
        simp only [Function.comp_apply, hid, if_pos]
        rw [hteq]
      · simp only [Function.comp_apply, hid]
        rw [if_neg (by simpa using hid), if_neg (by simpa using hid)]
    rw [List.map_congr_left hpt]
    exact List.map_id' _
  rw [hmap]
  refine ⟨fun iso' => ?_, fun iso' => ?_⟩
  · by_cases hi : iso' = iso
    · subst hi
      rw [hasDay_setDay_self, hhas]
    · rw [hasDay_setDay_other _ _ _ _ hi, hasDay_setDay_other _ _ _ _ hi]
  · by_cases hi : iso' = iso
    · subst hi
      rw [lookupDay_setDay_self]
    · rw [lookupDay_setDay_other _ _ _ _ hi, lookupDay_setDay_other _ _ _ _ hi]

/-- C2 amended, part of the proof: the failure path of `deleteTask` restores
the captured snapshot exactly. -/
theorem deleteTask_rollback (st : AppState) (iso : ISODate) (uid tid : String)
    (cur : DbTask)
    (hfind : (lookupDay st.tasksByDate iso).find? (fun t => t.id == tid) = some cur) :
    storeEqv (deleteTaskRun st iso uid tid false).state.tasksByDate st.tasksByDate ∧
    (deleteTaskRun st iso uid tid false).state.categories = st.categories := by
  have hcur : cur ∈ lookupDay st.tasksByDate iso := List.mem_of_find?_eq_some hfind
  have hnn : lookupDay st.tasksByDate iso ≠ [] := by
    intro h
    rw [h] at hcur
    cases hcur
  have hhas : hasDay st.tasksByDate iso = true := hasDay_of_lookupDay_ne_nil hnn
  unfold deleteTaskRun
  dsimp only
  rw [hfind]
  dsimp only
  rw [if_pos (by simp)]
  dsimp only
  refine ⟨⟨fun iso' => ?_, fun iso' => ?_⟩, rfl⟩
  · by_cases hi : iso' = iso
    · subst hi
      rw [hasDay_setDay_self, hhas]
    · rw [hasDay_setDay_other _ _ _ _ hi]
      split
      · rw [hasDay_eraseDay_other _ _ _ hi, hasDay_setDay_other _ _ _ _ hi]
      · rw [hasDay_setDay_other _ _ _ _ hi]
  · by_cases hi : iso' = iso
    · subst hi
      rw [lookupDay_setDay_self]
    · rw [lookupDay_setDay_other _ _ _ _ hi]
      split
      · rw [lookupDay_eraseDay_other _ _ _ hi, lookupDay_setDay_other _ _ _ _ hi]
      · rw [lookupDay_setDay_other _ _ _ _ hi]

/-- C2 amended: for toggle-done, edit-fields and delete, a failing remote
call leaves the Store (the task map) restored field-for-field to the
pre-mutation state; failures are reported through the returned error value,
never thrown.  (Move and reorder instead re-fetch the visible range from the
backend, category-delete applies its optimistic cascade regardless of the
remote outcome, and category-rename never mutates the Store directly.) -/
theorem remote_failure_rollback :
    (∀ st iso taskId cur,
      (lookupDay st.tasksByDate iso).find? (fun t => t.id == taskId) = some cur →
      ((lookupDay st.tasksByDate iso).map (fun t => t.id)).Nodup →
      storeEqv (toggleTaskRun st iso taskId false).state.tasksByDate st.tasksByDate) ∧
    (∀ st iso tid tit cat hp nts before,
      jsTrim tit ≠ "" →
      (lookupDay st.tasksByDate iso).find? (fun t => t.id == tid) = some before →
      ((lookupDay st.tasksByDate iso).map (fun t => t.id)).Nodup →
      storeEqv (saveEditTaskRun st iso tid tit cat hp nts false).state.tasksByDate
        st.tasksByDate) ∧
    (∀ st iso uid tid cur,
      (lookupDay st.tasksByDate iso).find? (fun t => t.id == tid) = some cur →
      storeEqv (deleteTaskRun st iso uid tid false).state.tasksByDate st.tasksByDate) := by
  refine ⟨?_, ?_, ?_⟩
  · intro st iso taskId cur hfind hids
    exact (toggleTask_rollback st iso taskId cur hfind hids).1
  · intro st iso tid tit cat hp nts before htit hfind hids
    exact saveEditTask_rollback st iso tid tit cat hp nts before htit hfind hids
  · intro st iso uid tid cur hfind
    exact (deleteTask_rollback st iso uid tid cur hfind).1

/-- Witness for the amended C2 at a concrete instance. -/
theorem remote_failure_rollback_witness :
    ((lookupDay demoState.tasksByDate "2026-01-01").find? (fun t => t.id == "t1") =
      some demoTask) ∧
    ((lookupDay demoState.tasksByDate "2026-01-01").map (fun t => t.id)).Nodup ∧
    storeEqv (toggleTaskRun demoState "2026-01-01" "t1" false).state.tasksByDate
      demoState.tasksByDate ∧
    storeEqv (deleteTaskRun demoState "2026-01-01" "u" "t1" false).state.tasksByDate
      demoState.tasksByDate :=
  ⟨by decide, by decide,
    remote_failure_rollback.1 demoState "2026-01-01" "t1" demoTask (by decide) (by decide),
    remote_failure_rollback.2.2 demoState "2026-01-01" "u" "t1" demoTask (by decide)⟩

/-! ## C10 — no date key is ever bound to an empty task list -/

/-- The implicit store invariant: no present date key maps to `[]`. -/
def noEmptyBuckets (m : StoreMap) : Prop := ∀ p ∈ m, p.2 ≠ []

theorem mem_setDay {m : StoreMap} {iso : ISODate} {l : List DbTask} {p : ISODate × List DbTask}
    (hp : p ∈ setDay m iso l) : p = (iso, l) ∨ p ∈ m := by
  unfold setDay at hp
  split at hp
  · obtain ⟨q, hq, hfq⟩ := List.mem_map.mp hp
    by_cases hqi : q.1 == iso
    · rw [if_pos hqi] at hfq
      exact Or.inl hfq.symm
    · rw [if_neg hqi] at hfq
      exact Or.inr (hfq ▸ hq)
  · rcases List.mem_append.mp hp with h | h
    · exact Or.inr h
    · exact Or.inl (List.mem_singleton.mp h)

theorem mem_eraseDay {m : StoreMap} {iso : ISODate} {p : ISODate × List DbTask}
    (hp : p ∈ eraseDay m iso) : p ∈ m ∧ ¬(p.1 = iso) := by
  unfold eraseDay at hp
  have := List.mem_filter.mp hp
  refine ⟨this.1, ?_⟩
  have h2 := this.2
  simp at h2
  exact h2

theorem noEmptyBuckets_setDay {m : StoreMap} {iso : ISODate} {l : List DbTask}
    (hm : noEmptyBuckets m) (hl : l ≠ []) : noEmptyBuckets (setDay m iso l) := by
  intro p hp
  rcases mem_setDay hp with rfl | hp'
  · exact hl
  · exact hm p hp'

theorem noEmptyBuckets_eraseDay {m : StoreMap} {iso : ISODate}
    (hm : noEmptyBuckets m) : noEmptyBuckets (eraseDay m iso) :=
  fun p hp => hm p (mem_eraseDay hp).1

theorem noEmptyBuckets_foldAppend (rows : List DbTask) (m : StoreMap)
    (hm : noEmptyBuckets m) :
    noEmptyBuckets (rows.foldl (fun m t => setDay m t.date (lookupDay m t.date ++ [t])) m) := by
  induction rows generalizing m with
  | nil => exact hm
  | cons r rows ih =>
    exact ih _ (noEmptyBuckets_setDay hm (by simp))

theorem noEmptyBuckets_mapTasksByDate (rows : List DbTask) :
    noEmptyBuckets (mapTasksByDate rows) :=
  noEmptyBuckets_foldAppend rows [] (fun p hp => absurd hp (List.not_mem_nil p))

theorem noEmptyBuckets_load (st : AppState) (env : RemoteEnv)
    (hm : noEmptyBuckets st.tasksByDate) :
    noEmptyBuckets (loadVisibleTasksRun st env).state.tasksByDate := by
  unfold loadVisibleTasksRun
  dsimp only
  split
  · exact hm
  · exact noEmptyBuckets_mapTasksByDate _

theorem lookupDay_ne_nil_of_find? {m : StoreMap} {iso : ISODate} {p : DbTask → Bool}
    {t : DbTask} (h : (lookupDay m iso).find? p = some t) : lookupDay m iso ≠ [] := by
  intro hnil
  rw [hnil] at h
  cases h

theorem noEmptyBuckets_reorderFinish (st : AppState) (evs : List Evt)
    (iso tid : String) (k : Int) (ok : Bool) (env : RemoteEnv)
    (hm : noEmptyBuckets st.tasksByDate) (hnn : lookupDay st.tasksByDate iso ≠ []) :
    noEmptyBuckets (reorderFinish st evs iso tid k ok env).state.tasksByDate := by
  unfold reorderFinish
  dsimp only
  have h1 : noEmptyBuckets (setDay st.tasksByDate iso
      ((lookupDay st.tasksByDate iso).map
        (fun t => if t.id == tid then { t with sort_order := k } else t))) :=
    noEmptyBuckets_setDay hm (by
      intro h
      exact hnn (List.map_eq_nil_iff.mp h))
  split
  · exact h1
  · exact noEmptyBuckets_load _ env h1

theorem noEmptyBuckets_renormalize (st : AppState) (iso : ISODate) (gdone : Bool)
    (gprio : Int) (hm : noEmptyBuckets st.tasksByDate)
    (hnn : lookupDay st.tasksByDate iso ≠ []) :
    noEmptyBuckets (renormalizeGroupRun st iso gdone gprio).state.tasksByDate := by
  unfold renormalizeGroupRun
  dsimp only
  exact noEmptyBuckets_setDay hm (by
    intro h
    exact hnn (List.map_eq_nil_iff.mp h))

/-- C10: every Store operation preserves (or establishes, for loading) the
invariant that no date key is bound to an empty task list: operations that
can empty a day's bucket (`deleteTask`, `moveTask`) delete that date's key,
and loading and insertion only ever create non-empty buckets.
(`renormalizeGroup` is an internal helper only invoked with a non-empty day,
hypothesized accordingly.) -/
theorem store_never_holds_empty_bucket :
    (∀ rows, noEmptyBuckets (mapTasksByDate rows)) ∧
    (∀ m rows, noEmptyBuckets m → noEmptyBuckets (addTaskApplyRows m rows)) ∧
    (∀ st iso tid ok, noEmptyBuckets st.tasksByDate →
      noEmptyBuckets (toggleTaskRun st iso tid ok).state.tasksByDate) ∧
    (∀ st iso tid tit cat hp nts ok, noEmptyBuckets st.tasksByDate →
      noEmptyBuckets (saveEditTaskRun st iso tid tit cat hp nts ok).state.tasksByDate) ∧
    (∀ st iso uid tid ok, noEmptyBuckets st.tasksByDate →
      noEmptyBuckets (deleteTaskRun st iso uid tid ok).state.tasksByDate) ∧
    (∀ st r newId ts, noEmptyBuckets st.tasksByDate →
      noEmptyBuckets (runDeleteUndo st r newId ts).tasksByDate) ∧
    (∀ st f t tid now ok env, noEmptyBuckets st.tasksByDate →
      noEmptyBuckets (moveTaskRun st f t tid now ok env).state.tasksByDate) ∧
    (∀ st iso tid oid pos ok env, noEmptyBuckets st.tasksByDate →
      noEmptyBuckets (applyReorderRun st iso tid oid pos ok env).state.tasksByDate) ∧
    (∀ st iso gd gp, noEmptyBuckets st.tasksByDate → lookupDay st.tasksByDate iso ≠ [] →
      noEmptyBuckets (renormalizeGroupRun st iso gd gp).state.tasksByDate) ∧
    (∀ st cat ok, noEmptyBuckets st.tasksByDate →
      noEmptyBuckets (deleteCategoryRun st cat ok).state.tasksByDate) ∧
    (∀ st o n ok env, noEmptyBuckets st.tasksByDate →
      noEmptyBuckets (renameCategoryRun st o n ok env).state.tasksByDate) := by
  refine ⟨noEmptyBuckets_mapTasksByDate, ?_, ?_, ?_, ?_, ?_, ?_, ?_, ?_, ?_, ?_⟩
  · intro m rows hm
    exact noEmptyBuckets_foldAppend rows m hm
  · intro st iso tid ok hm
    unfold toggleTaskRun
    dsimp only
    split
    · exact hm
    · rename_i cur hcur
      have hnn : lookupDay st.tasksByDate iso ≠ [] := lookupDay_ne_nil_of_find? hcur
      have h1 : noEmptyBuckets (setDay st.tasksByDate iso
          ((lookupDay st.tasksByDate iso).map
            (fun t => if t.id == tid then { t with done := !cur.done } else t))) :=
        noEmptyBuckets_setDay hm (fun h => hnn (List.map_eq_nil_iff.mp h))
      split
      · exact h1
      · dsimp only
        refine noEmptyBuckets_setDay h1 ?_
        rw [lookupDay_setDay_self]
        intro h
        exact hnn (List.map_eq_nil_iff.mp (List.map_eq_nil_iff.mp h))
  · intro st iso tid tit cat hp nts ok hm
    unfold saveEditTaskRun
    dsimp only
    split
    · exact hm
    · split
      · exact hm
      · rename_i before hbef
        have hnn : lookupDay st.tasksByDate iso ≠ [] := lookupDay_ne_nil_of_find? hbef
        have h1 : noEmptyBuckets (setDay st.tasksByDate iso
            ((lookupDay st.tasksByDate iso).map (fun t =>
              if t.id == tid then { t with title := jsTrim tit, category := if cat = "__none__" then none else some (normalizeCategory cat), priority := if hp then 2 else 1, notes := if jsTrim nts = "" then none else some (jsTrim nts) } else t))) :=
          noEmptyBuckets_setDay hm (fun h => hnn (List.map_eq_nil_iff.mp h))
        split
        · exact h1
        · dsimp only
          refine noEmptyBuckets_setDay h1 ?_
          rw [lookupDay_setDay_self]
          intro h
          exact hnn (List.map_eq_nil_iff.mp (List.map_eq_nil_iff.mp h))
  · intro st iso uid tid ok hm
    unfold deleteTaskRun
    dsimp only
    split
    · exact hm
    · rename_i cur hcur
      have hnn : lookupDay st.tasksByDate iso ≠ [] := lookupDay_ne_nil_of_find? hcur
      have h2 : noEmptyBuckets (if ((lookupDay st.tasksByDate iso).filter (fun t => !(t.id == tid))).isEmpty = true then eraseDay (setDay st.tasksByDate iso ((lookupDay st.tasksByDate iso).filter (fun t => !(t.id == tid)))) iso else setDay st.tasksByDate iso ((lookupDay st.tasksByDate iso).filter (fun t => !(t.id == tid)))) := by
        split
        · rename_i hemp
          intro p hp
          obtain ⟨hpm, hpne⟩ := mem_eraseDay hp
          rcases mem_setDay hpm with rfl | hpm'
          · exact absurd rfl hpne
          · exact hm p hpm'
        · rename_i hemp
          refine noEmptyBuckets_setDay hm ?_
          intro h
          rw [h] at hemp
          exact hemp rfl
      split
      · dsimp only
        exact noEmptyBuckets_setDay h2 hnn
      · exact h2
  · intro st r newId ts hm
    unfold runDeleteUndo
    dsimp only
    exact noEmptyBuckets_setDay hm (by simp)
  · intro st f t tid now ok env hm
    unfold moveTaskRun
    dsimp only
    split
    · exact hm
    · rename_i hne
      split
      · exact hm
      · rename_i task htask
        have hm2 : noEmptyBuckets (if ((lookupDay st.tasksByDate f).filter (fun t2 => !(t2.id == tid))).isEmpty = true then eraseDay (setDay (setDay st.tasksByDate f ((lookupDay st.tasksByDate f).filter (fun t2 => !(t2.id == tid)))) t (lookupDay st.tasksByDate t ++ [{ task with date := t, sort_order := now }])) f else setDay (setDay st.tasksByDate f ((lookupDay st.tasksByDate f).filter (fun t2 => !(t2.id == tid)))) t (lookupDay st.tasksByDate t ++ [{ task with date := t, sort_order := now }])) := by
          split
          · intro p hp
            obtain ⟨hpm, hpne⟩ := mem_eraseDay hp
            rcases mem_setDay hpm with rfl | hpm'
            · simp
            · rcases mem_setDay hpm' with rfl | hpm''
              · exact absurd rfl hpne
              · exact hm p hpm''
          · rename_i hemp
            refine noEmptyBuckets_setDay ?_ (by simp)
            refine noEmptyBuckets_setDay hm ?_
            intro h
            rw [h] at hemp
            exact hemp rfl
        split
        · exact hm2
        · exact noEmptyBuckets_load { st with tasksByDate := (if ((lookupDay st.tasksByDate f).filter (fun t2 => !(t2.id == tid))).isEmpty = true then eraseDay (setDay (setDay st.tasksByDate f ((lookupDay st.tasksByDate f).filter (fun t2 => !(t2.id == tid)))) t (lookupDay st.tasksByDate t ++ [{ task with date := t, sort_order := now }])) f else setDay (setDay st.tasksByDate f ((lookupDay st.tasksByDate f).filter (fun t2 => !(t2.id == tid)))) t (lookupDay st.tasksByDate t ++ [{ task with date := t, sort_order := now }])) } env hm2
  · intro st iso tid oid pos ok env hm
    unfold applyReorderRun
    dsimp only
    split
    · exact hm
    · split
      · rename_i moved over hmv hov
        have hnn : lookupDay st.tasksByDate iso ≠ [] := by
          have hmem : moved ∈ sortDay (lookupDay st.tasksByDate iso) :=
            List.mem_of_find?_eq_some hmv
          intro h
          rw [h] at hmem
          simp [sortDay, List.mergeSort] at hmem
        split
        · exact hm
        · split
          · exact hm
          · split
            · exact noEmptyBuckets_reorderFinish _ _ _ _ _ _ env hm hnn
            · exact noEmptyBuckets_reorderFinish _ _ _ _ _ _ env hm hnn
            · exact noEmptyBuckets_reorderFinish _ _ _ _ _ _ env hm hnn
            · split
              · refine noEmptyBuckets_reorderFinish _ _ _ _ _ _ env ?_ ?_
                · exact noEmptyBuckets_renormalize st iso _ _ hm hnn
                · unfold renormalizeGroupRun
                  dsimp only
                  rw [lookupDay_setDay_self]
                  intro h
                  exact hnn (List.map_eq_nil_iff.mp h)
              · exact noEmptyBuckets_reorderFinish _ _ _ _ _ _ env hm hnn
      · exact hm
  · intro st iso gd gp hm hnn
    exact noEmptyBuckets_renormalize st iso gd gp hm hnn
  · intro st cat ok hm
    unfold deleteCategoryRun
    dsimp only
    split
    · exact hm
    · intro p hp
      obtain ⟨q, hq, hfq⟩ := List.mem_map.mp hp
      rw [← hfq]
      dsimp only
      intro h
      exact hm q hq (List.map_eq_nil_iff.mp h)
  · intro st o n ok env hm
    unfold renameCategoryRun
    dsimp only
    split
    · exact hm
    · exact noEmptyBuckets_load st _ hm

/-- Witness for C10 at a concrete instance. -/
theorem store_never_holds_empty_bucket_witness :
    noEmptyBuckets demoState.tasksByDate ∧
    noEmptyBuckets (deleteTaskRun demoState "2026-01-01" "u" "t1" true).state.tasksByDate ∧
    noEmptyBuckets (mapTasksByDate [demoTask]) :=
  ⟨by unfold noEmptyBuckets; decide,
    store_never_holds_empty_bucket.2.2.2.2.1 demoState "2026-01-01" "u" "t1" true
      (by unfold noEmptyBuckets; decide),
    store_never_holds_empty_bucket.1 [demoTask]⟩

/-! ## C6 — category rename cascade -/

theorem mem_bucket_of_mem_lookupDay {m : StoreMap} {iso : ISODate} {t : DbTask}
    (ht : t ∈ lookupDay m iso) : ∃ q ∈ m, t ∈ q.2 := by
  unfold lookupDay at ht
  cases hf : m.find? (fun p => p.1 == iso) with
  | none =>
    rw [hf] at ht
    cases ht
  | some q =>
    rw [hf] at ht
    exact ⟨q, List.mem_of_find?_eq_some hf, ht⟩

theorem bucket_foldAppend_sub (rows : List DbTask) (m : StoreMap)
    {p : ISODate × List DbTask} {t : DbTask}
    (hp : p ∈ rows.foldl (fun m t => setDay m t.date (lookupDay m t.date ++ [t])) m)
    (ht : t ∈ p.2) : (∃ q ∈ m, t ∈ q.2) ∨ t ∈ rows := by
  induction rows generalizing m with
  | nil => exact Or.inl ⟨p, hp, ht⟩
  | cons r rows ih =>
    rcases ih (setDay m r.date (lookupDay m r.date ++ [r])) hp with ⟨q, hq, htq⟩ | hr
    · rcases mem_setDay hq with rfl | hq'
      · rcases List.mem_append.mp htq with hl | hr
        · rcases mem_bucket_of_mem_lookupDay hl with ⟨q', hq', htq'⟩
          exact Or.inl ⟨q', hq', htq'⟩
        · exact Or.inr (List.mem_singleton.mp hr ▸ List.mem_cons_self r rows)
      · exact Or.inl ⟨q, hq', htq⟩
    · exact Or.inr (List.mem_cons_of_mem r hr)

theorem mem_rows_of_mem_mapTasksByDate {rows : List DbTask}
    {p : ISODate × List DbTask} {t : DbTask}
    (hp : p ∈ mapTasksByDate rows) (ht : t ∈ p.2) : t ∈ rows := by
  rcases bucket_foldAppend_sub rows [] hp ht with ⟨q, hq, _⟩ | h
  · cases hq
  · exact h

theorem mem_foldl_append {α β : Type} (f : β → List α) (c : α) :
    ∀ (l : List β) (acc : List α),
      c ∈ l.foldl (fun a p => a ++ f p) acc → c ∈ acc ∨ ∃ p ∈ l, c ∈ f p := by
  intro l
  induction l with
  | nil => exact fun acc h => Or.inl h
  | cons x xs ih =>
    intro acc h
    rcases ih (acc ++ f x) h with h2 | ⟨p, hp, hcp⟩
    · rcases List.mem_append.mp h2 with h3 | h3
      · exact Or.inl h3
      · exact Or.inr ⟨x, List.mem_cons_self x xs, h3⟩
    · exact Or.inr ⟨p, List.mem_cons_of_mem x hp, hcp⟩

theorem mem_uniqueCategories {m : StoreMap} {c : String}
    (hc : c ∈ uniqueCategoriesFromTasks m) :
    ∃ p ∈ m, ∃ t ∈ p.2, normalizeCategory (t.category.getD "") = c ∧ c ≠ "" := by
  unfold uniqueCategoriesFromTasks at hc
  dsimp only at hc
  rw [List.mem_mergeSort, List.mem_dedup] at hc
  rcases mem_foldl_append _ c m [] hc with h | ⟨p, hp, hcp⟩
  · cases h
  · obtain ⟨t, ht, hgt⟩ := List.mem_filterMap.mp hcp
    by_cases hz : normalizeCategory (t.category.getD "") = ""
    · rw [if_pos hz] at hgt
      cases hgt
    · rw [if_neg hz] at hgt
      have := Option.some.inj hgt
      exact ⟨p, hp, t, ht, this, this ▸ hz⟩

theorem nodup_uniqueCategories (m : StoreMap) : (uniqueCategoriesFromTasks m).Nodup := by
  unfold uniqueCategoriesFromTasks
  dsimp only
  exact (List.mergeSort_perm _ _).nodup_iff.mpr (List.nodup_dedup _)

def demoEnv : RemoteEnv :=
  { table := [demoTask], uid := "u", visFrom := "2026-01-01", visTo := "2026-01-31",
    selectOk := true }

/-- C6 counterexample: `rename("Arbeit", "Arbeit ")` has raw-distinct,
non-empty arguments, but the handler normalizes both names first and bails
out because they trim to the same name — the rename completes as a no-op and
the loaded task still carries category `"Arbeit"`, i.e. the `from` argument. -/
theorem renameCategory_trim_equal_names_noop :
    ("Arbeit" : String) ≠ "" ∧ ("Arbeit " : String) ≠ "" ∧
    ("Arbeit" : String) ≠ "Arbeit " ∧
    (renameCategoryRun demoState "Arbeit" "Arbeit " true demoEnv).state = demoState ∧
    demoTask ∈ lookupDay
      (renameCategoryRun demoState "Arbeit" "Arbeit " true demoEnv).state.tasksByDate
      "2026-01-01" ∧
    demoTask.category = some "Arbeit" := by
  refine ⟨by decide, by decide, by decide, by decide, by decide, rfl⟩

/-- C6 amended: for every `rename(from, to)` whose arguments are already
normalized (trim-fixed), non-empty and distinct, and whose remote bulk update
and subsequent reload both succeed, on a backend whose stored category names
are normalized: after `renameCategory` completes no loaded task has category
`from`, the category set no longer contains `from`, and the category set is
deduplicated — so renaming onto a pre-existing name merges the two
categories' membership. -/
theorem renameCategory_cascades (st : AppState) (oldName newNameRaw : String)
    (env : RemoteEnv)
    (hfn : jsTrim oldName = oldName) (htn : jsTrim newNameRaw = newNameRaw)
    (hfe : oldName ≠ "") (hte : newNameRaw ≠ "") (hne : oldName ≠ newNameRaw)
    (hsel : env.selectOk = true)
    (htab : ∀ r ∈ env.table, ∀ c, r.category = some c → jsTrim c = c) :
    (∀ iso t, t ∈ lookupDay
        (renameCategoryRun st oldName newNameRaw true env).state.tasksByDate iso →
      t.category ≠ some oldName) ∧
    oldName ∉ (renameCategoryRun st oldName newNameRaw true env).state.categories ∧
    (renameCategoryRun st oldName newNameRaw true env).state.categories.Nodup := by
  have hnorm : normalizeCategory oldName = oldName := hfn
  have hnorm2 : normalizeCategory newNameRaw = newNameRaw := htn
  unfold renameCategoryRun
  dsimp only
  rw [hnorm, hnorm2]
  rw [if_neg (by
    push_neg
    exact ⟨hfe, hte, hne⟩)]
  dsimp only
  unfold loadVisibleTasksRun
  dsimp only
  rw [hsel]
  rw [if_neg (by simp)]
  dsimp only
  set table2 := env.table.map (fun r =>
    if r.user_id == env.uid && r.category == some oldName then
      { r with category := some newNameRaw }
    else r) with htable2
  have hmemtab : ∀ t ∈ table2, (t.user_id = env.uid → t.category ≠ some oldName) ∧
      (∀ c, t.category = some c → jsTrim c = c) := by
    intro t hmem
    obtain ⟨r, hr, hrt⟩ := List.mem_map.mp hmem
    by_cases hcond : (r.user_id == env.uid && r.category == some oldName) = true
    · rw [if_pos hcond] at hrt
      constructor
      · intro _ hcat
        rw [← hrt] at hcat
        simp only at hcat
        exact hne (Option.some.inj hcat).symm
      · intro c hcat
        rw [← hrt] at hcat
        simp only at hcat
        rw [← Option.some.inj hcat]
        exact htn
    · rw [if_neg hcond] at hrt
      subst hrt
      constructor
      · intro huser hcat
        simp only [Bool.and_eq_true, beq_iff_eq] at hcond
        push_neg at hcond
        exact hcond huser hcat
      · exact htab _ hr
  have hrows : ∀ t ∈ selectVisibleRows { env with table := table2 },
      t.category ≠ some oldName ∧ (∀ c, t.category = some c → jsTrim c = c) := by
    intro t hmem
    unfold selectVisibleRows at hmem
    rw [List.mem_mergeSort] at hmem
    have := List.mem_filter.mp hmem
    obtain ⟨hmem2, hpred⟩ := this
    simp only [Bool.and_eq_true, beq_iff_eq, decide_eq_true_eq] at hpred
    obtain ⟨⟨huser, _⟩, _⟩ := hpred
    have := hmemtab t hmem2
    exact ⟨this.1 huser, this.2⟩
  refine ⟨?_, ?_, nodup_uniqueCategories _⟩
  · intro iso t ht
    obtain ⟨q, hq, htq⟩ := mem_bucket_of_mem_lookupDay ht
    have hmem := mem_rows_of_mem_mapTasksByDate hq htq
    exact (hrows t hmem).1
  · intro hmem
    obtain ⟨p, hp, t, ht, hcat, hcne⟩ := mem_uniqueCategories hmem
    have hmem2 := mem_rows_of_mem_mapTasksByDate hp ht
    obtain ⟨hc1, hc2⟩ := hrows t hmem2
    cases hcopt : t.category with
    | none =>
      rw [hcopt] at hcat
      simp only [Option.getD_none] at hcat
      exact hcne (hcat ▸ rfl)
    | some c =>
      rw [hcopt] at hcat
      simp only [Option.getD_some] at hcat
      have := hc2 c hcopt
      unfold normalizeCategory at hcat
      rw [this] at hcat
      exact hc1 (hcat ▸ hcopt)

/-- Witness for the amended C6 at a concrete instance. -/
theorem renameCategory_cascades_witness :
    (jsTrim "Arbeit" = "Arbeit" ∧ jsTrim "Privat" = "Privat" ∧
      ("Arbeit" : String) ≠ "" ∧ ("Privat" : String) ≠ "" ∧
      ("Arbeit" : String) ≠ "Privat" ∧ demoEnv.selectOk = true) ∧
    ((∀ iso t, t ∈ lookupDay
        (renameCategoryRun demoState "Arbeit" "Privat" true demoEnv).state.tasksByDate iso →
      t.category ≠ some "Arbeit") ∧
    "Arbeit" ∉ (renameCategoryRun demoState "Arbeit" "Privat" true demoEnv).state.categories ∧
    (renameCategoryRun demoState "Arbeit" "Privat" true demoEnv).state.categories.Nodup) :=
  ⟨⟨by decide, by decide, by decide, by decide, by decide, rfl⟩,
    renameCategory_cascades demoState "Arbeit" "Privat" demoEnv (by decide) (by decide)
      (by decide) (by decide) (by decide) rfl
      (by
        intro r hr c hc
        have : r = demoTask := List.mem_singleton.mp hr
        rw [this] at hc
        have : c = "Arbeit" := Option.some.inj ((show demoTask.category = some "Arbeit" from rfl) ▸ hc).symm
        rw [this]
        decide)⟩

/-! ## C8 — silent no-op reorder cases -/

theorem nodup_ids_sortDay {l : List DbTask}
    (h : (l.map (fun t => t.id)).Nodup) :
    ((sortDay l).map (fun t => t.id)).Nodup :=
  (((sortDay_perm l).map (fun t => t.id)).nodup_iff).mpr h

/-- C8: a reorder request whose moved task and reference task are identical,
or whose two tasks belong to different `(done, priority)` partitions, leaves
the Store unchanged, performs no remote call, and surfaces no error. -/
theorem reorder_noop_cases (st : AppState) (iso taskId overId : String)
    (pos : ReorderPos) (ok : Bool) (env : RemoteEnv) :
    (taskId = overId →
      applyReorderRun st iso taskId overId pos ok env = { state := st, events := [] }) ∧
    (∀ moved over,
      ((lookupDay st.tasksByDate iso).map (fun t => t.id)).Nodup →
      moved ∈ lookupDay st.tasksByDate iso → moved.id = taskId →
      over ∈ lookupDay st.tasksByDate iso → over.id = overId →
      ¬(doneNum moved.done = doneNum over.done ∧ prioOf moved = prioOf over) →
      applyReorderRun st iso taskId overId pos ok env = { state := st, events := [] }) := by
  constructor
  · intro h
    unfold applyReorderRun
    rw [if_pos (Or.inr (Or.inr h))]
  · intro moved over hids hmv hmid hov hoid hdiff
    unfold applyReorderRun
    by_cases hg : taskId = "" ∨ overId = "" ∨ taskId = overId
    · rw [if_pos hg]
    · rw [if_neg hg]
      dsimp only
      have hidsS := nodup_ids_sortDay hids
      rw [find?_id_eq_some_of_mem hidsS (mem_sortDay.mpr hmv) hmid,
          find?_id_eq_some_of_mem hidsS (mem_sortDay.mpr hov) hoid]
      dsimp only
      have hb : (doneNum moved.done == doneNum over.done && prioOf moved == prioOf over) = false := by
        by_cases h1 : doneNum moved.done = doneNum over.done
        · have h2 : prioOf moved ≠ prioOf over := fun h2 => hdiff ⟨h1, h2⟩
          simp [h1, h2]
        · simp [h1]
      rw [hb]
      simp

def demoTaskDone : DbTask :=
  { id := "t2", user_id := "u", date := "2026-01-01", title := "Erledigt",
    category := none, done := true, created_at := none, priority := 1,
    repeat_every_days := none, repeat_until := none, sort_order := 2000,
    notes := none }

def demoStateTwo : AppState :=
  { tasksByDate := [("2026-01-01", [demoTask, demoTaskDone])], categories := ["Arbeit"] }

/-- Witness for C8 at a concrete instance (cross-partition request). -/
theorem reorder_noop_cases_witness :
    (((lookupDay demoStateTwo.tasksByDate "2026-01-01").map (fun t => t.id)).Nodup ∧
      demoTask ∈ lookupDay demoStateTwo.tasksByDate "2026-01-01" ∧
      demoTaskDone ∈ lookupDay demoStateTwo.tasksByDate "2026-01-01" ∧
      ¬(doneNum demoTask.done = doneNum demoTaskDone.done ∧
        prioOf demoTask = prioOf demoTaskDone)) ∧
    applyReorderRun demoStateTwo "2026-01-01" "t1" "t2" ReorderPos.above true demoEnv =
      { state := demoStateTwo, events := [] } :=
  ⟨⟨by decide, by decide, by decide, by decide⟩,
    (reorder_noop_cases demoStateTwo "2026-01-01" "t1" "t2" ReorderPos.above true demoEnv).2
      demoTask demoTaskDone (by decide) (by decide) (by decide) (by decide) (by decide)
      (by decide)⟩

/-! ## C1/C3 — machinery for the reorder correctness proof -/

theorem getAt?_neg {l : List DbTask} {i : Int} (h : i < 0) : getAt? l i = none := by
  unfold getAt?
  rw [if_pos h]

theorem getAt?_append_len (u : List DbTask) (x : DbTask) (v : List DbTask) :
    getAt? (u ++ x :: v) (u.length : Int) = some x := by
  unfold getAt?
  rw [if_neg (by omega)]
  rw [Int.toNat_natCast]
  rw [List.get?_eq_getElem?]
  rw [List.getElem?_append_right (le_refl _)]
  simp

theorem getAt?_append_len_add_one (u : List DbTask) (x : DbTask) (v : List DbTask) :
    getAt? (u ++ x :: v) ((u.length : Int) + 1) = v.head? := by
  unfold getAt?
  rw [if_neg (by omega)]
  have : ((u.length : Int) + 1).toNat = u.length + 1 := by omega
  rw [this]
  rw [List.get?_eq_getElem?]
  rw [List.getElem?_append_right (by omega)]
  cases v with
  | nil => simp
  | cons n v' =>
    have : u.length + 1 - u.length = 1 := by omega
    rw [this]
    simp

theorem findIdx_id_of_split {u v : List DbTask} {over : DbTask} {overId : String}
    (hn : (((u ++ over :: v)).map (fun t => t.id)).Nodup) (hoid : over.id = overId) :
    (u ++ over :: v).findIdx (fun t => t.id == overId) = u.length := by
  induction u with
  | nil =>
    rw [List.nil_append, List.findIdx_cons]
    have : (over.id == overId) = true := by simp [hoid]
    rw [this]
    rfl
  | cons x u ih =>
    rw [List.cons_append, List.findIdx_cons]
    have hxid : x.id ≠ overId := by
      rw [List.cons_append, List.map_cons, List.nodup_cons] at hn
      intro h
      apply hn.1
      rw [List.mem_map]
      exact ⟨over, by simp, hoid.trans h.symm⟩
    have hb : (x.id == overId) = false := by simp [hxid]
    rw [hb, cond_false, List.length_cons]
    have hn2 : ((u ++ over :: v).map (fun t => t.id)).Nodup := by
      rw [List.cons_append, List.map_cons, List.nodup_cons] at hn
      exact hn.2
    rw [ih hn2]

/-- `sort_order`-strict sortedness of the day's partition list, given the
claim's distinctness hypothesis on the partition. -/
theorem group_pairwise_lt {D : List DbTask} {gd : Bool} {gp : Int}
    (hdist : (D.filter (inGroupB gd gp)).Pairwise
      (fun a b => a.sort_order ≠ b.sort_order)) :
    ((sortDay D).filter (fun t => inGroupB gd gp t)).Pairwise
      (fun a b => a.sort_order < b.sort_order) := by
  have hle : ((sortDay D).filter (fun t => inGroupB gd gp t)).Pairwise
      (fun a b => sortLE a b = true) :=
    (sortDay_pairwise D).filter _
  have hperm : List.Perm ((sortDay D).filter (fun t => inGroupB gd gp t))
      (D.filter (inGroupB gd gp)) := (sortDay_perm D).filter _
  have hne : ((sortDay D).filter (fun t => inGroupB gd gp t)).Pairwise
      (fun a b => a.sort_order ≠ b.sort_order) :=
    (hperm.pairwise_iff (fun h => fun hh => h hh.symm)).mpr hdist
  have hcomb := hle.and hne
  refine hcomb.imp_of_mem ?_
  intro a b ha hb hab
  have hga := (List.mem_filter.mp ha).2
  have hgb := (List.mem_filter.mp hb).2
  obtain ⟨hda, hpa⟩ := inGroupB_iff.mp hga
  obtain ⟨hdb, hpb⟩ := inGroupB_iff.mp hgb
  exact (sortLE_same_group_iff (hda.trans hdb.symm) (hpa.trans hpb.symm) hab.2).mp hab.1

/-- The sort-order write of `applyReorderWithinDay`'s tail. -/
def updSO (taskId : String) (k : Int) (t : DbTask) : DbTask :=
  if t.id == taskId then { t with sort_order := k } else t

theorem updSO_id (taskId : String) (k : Int) (t : DbTask) : (updSO taskId k t).id = t.id := by
  unfold updSO
  split <;> rfl

theorem updSO_group (gd : Bool) (gp : Int) (taskId : String) (k : Int) (t : DbTask) :
    inGroupB gd gp (updSO taskId k t) = inGroupB gd gp t := by
  unfold updSO
  split <;> rfl

theorem updSO_of_ne (taskId : String) (k : Int) (t : DbTask) (h : t.id ≠ taskId) :
    updSO taskId k t = t := by
  unfold updSO
  rw [if_neg (by simpa using h)]

theorem updSO_of_eq (taskId : String) (k : Int) (t : DbTask) (h : t.id = taskId) :
    updSO taskId k t = { t with sort_order := k } := by
  unfold updSO
  rw [if_pos (by simpa using h)]

/-- A task outside the `(done, priority)` partition of `a` and `b` cannot sit
between them in comparator order. -/
theorem no_outsider_between {a b t : DbTask} (hd : doneNum a.done = doneNum b.done)
    (hp : prioOf a = prioOf b)
    (hout : doneNum t.done ≠ doneNum a.done ∨ prioOf t ≠ prioOf a)
    (h1 : sortLE a t = true) (h2 : sortLE t b = true) : False := by
  obtain ⟨heq, hne0⟩ := sortForDisplay_outsider hd hp hout
  unfold sortLE at h1 h2
  simp only [decide_eq_true_eq] at h1 h2
  have hbt : sortForDisplay b t ≤ 0 := heq ▸ h1
  have h1R := (sortForDisplay_le_iff b t).mp hbt
  have h2R := (sortForDisplay_le_iff t b).mp h2
  rcases h1R with hx | ⟨hx1, hx | ⟨hx2, hx | ⟨hx3, _⟩⟩⟩ <;>
    rcases h2R with hy | ⟨hy1, hy | ⟨hy2, hy | ⟨hy3, _⟩⟩⟩ <;>
      omega

/-- Pairwise-distinct `sort_order` values in the partition survive writing
`newOrder` to the moved task, provided `newOrder` collides with no other
member. -/
theorem distinct_after_updSO (D : List DbTask) (taskId : String) (newOrder : Int)
    (gd : Bool) (gp : Int)
    (hids : (D.map (fun t => t.id)).Nodup)
    (hdist : (D.filter (inGroupB gd gp)).Pairwise
      (fun a b => a.sort_order ≠ b.sort_order))
    (hWne : ∀ c ∈ D, inGroupB gd gp c = true → c.id ≠ taskId →
      c.sort_order ≠ newOrder) :
    ((D.map (updSO taskId newOrder)).filter (inGroupB gd gp)).Pairwise
      (fun a b => a.sort_order ≠ b.sort_order) := by
  have hpred : (fun t => inGroupB gd gp (updSO taskId newOrder t)) = inGroupB gd gp := by
    funext t
    exact updSO_group gd gp taskId newOrder t
  rw [List.filter_map]
  rw [show (inGroupB gd gp ∘ updSO taskId newOrder) = inGroupB gd gp from hpred]
  rw [List.pairwise_map]
  have hidpair : (D.filter (inGroupB gd gp)).Pairwise (fun a b => a.id ≠ b.id) := by
    have hsub : ((D.filter (inGroupB gd gp)).map (fun t => t.id)).Nodup :=
      ((List.filter_sublist D).map (fun t => t.id)).nodup hids
    exact List.pairwise_map.mp hsub
  refine (hdist.and hidpair).imp_of_mem ?_
  intro a b ha hb hab
  obtain ⟨hso, hid⟩ := hab
  have haD := (List.mem_filter.mp ha).1
  have hag := (List.mem_filter.mp ha).2
  have hbD := (List.mem_filter.mp hb).1
  have hbg := (List.mem_filter.mp hb).2
  by_cases ha1 : a.id = taskId
  · by_cases hb1 : b.id = taskId
    · exact absurd (ha1.trans hb1.symm) hid
    · rw [updSO_of_eq _ _ _ ha1, updSO_of_ne _ _ _ hb1]
      exact fun h => hWne b hbD hbg hb1 h.symm
  · by_cases hb1 : b.id = taskId
    · rw [updSO_of_ne _ _ _ ha1, updSO_of_eq _ _ _ hb1]
      exact fun h => hWne a haD hag ha1 h
    · rw [updSO_of_ne _ _ _ ha1, updSO_of_ne _ _ _ hb1]
      exact hso

/-- Core placement lemma for `pos = above`: writing a key that wedges the
moved task immediately below the reference task's key makes the two adjacent
in the re-sorted day. -/
theorem assembly_above (D : List DbTask) (taskId overId : String) (newOrder : Int)
    (gd : Bool) (gp : Int)
    (hids : (D.map (fun t => t.id)).Nodup)
    (mvt : DbTask) (hmv : mvt ∈ D) (hmvid : mvt.id = taskId)
    (hmvg : inGroupB gd gp mvt = true)
    (over : DbTask) (hov : over ∈ D) (hovid : over.id = overId)
    (hovg : inGroupB gd gp over = true)
    (hneid : overId ≠ taskId)
    (hdist : (D.filter (inGroupB gd gp)).Pairwise
      (fun a b => a.sort_order ≠ b.sort_order))
    (hno : newOrder < over.sort_order)
    (hW : ∀ c ∈ D, inGroupB gd gp c = true → c.id ≠ taskId → c.id ≠ overId →
      (c.sort_order < newOrder ∨ over.sort_order < c.sort_order)) :
    ∃ u v, sortDay (D.map (updSO taskId newOrder)) =
      u ++ ({ mvt with sort_order := newOrder }) :: over :: v := by
  obtain ⟨hmd, hmp⟩ := inGroupB_iff.mp hmvg
  obtain ⟨hod, hop⟩ := inGroupB_iff.mp hovg
  have hovernot : over.id ≠ taskId := hovid ▸ hneid
  have hD2ids : ((D.map (updSO taskId newOrder)).map (fun t => t.id)).Nodup := by
    rw [List.map_map]
    have : ((fun t : DbTask => t.id) ∘ updSO taskId newOrder) = (fun t : DbTask => t.id) := by
      funext t
      exact updSO_id taskId newOrder t
    rw [this]
    exact hids
  have hmoved'mem : ({ mvt with sort_order := newOrder }) ∈ D.map (updSO taskId newOrder) :=
    List.mem_map.mpr ⟨mvt, hmv, updSO_of_eq _ _ _ hmvid⟩
  have hovermem : over ∈ D.map (updSO taskId newOrder) :=
    List.mem_map.mpr ⟨over, hov, updSO_of_ne _ _ _ hovernot⟩
  have hstrict := sortLE_strict_same_group
    (a := { mvt with sort_order := newOrder }) (b := over)
    (by simpa using hmd.trans hod.symm) (by simpa [prioOf] using hmp.trans hop.symm)
    (by simpa using hno)
  refine sorted_adjacent_of_between (sortDay_pairwise _) ?_ ?_ ?_ hstrict.2 ?_
  · exact ((sortDay_perm _).nodup_iff).mpr (List.Nodup.of_map _ hD2ids)
  · exact mem_sortDay.mpr hmoved'mem
  · exact mem_sortDay.mpr hovermem
  · intro c hc hle1 hle2
    have hcD2 : c ∈ D.map (updSO taskId newOrder) := mem_sortDay.mp hc
    obtain ⟨t, htD, htc⟩ := List.mem_map.mp hcD2
    by_cases hid : t.id = taskId
    · left
      rw [← htc, updSO_of_eq _ _ _ hid]
      have : t = mvt := eq_of_mem_of_id_nodup hids htD hmv (hid.trans hmvid.symm)
      rw [this]
    · have hct : c = t := by rw [← htc, updSO_of_ne _ _ _ hid]
      subst hct
      by_cases hg : inGroupB gd gp c = true
      · by_cases hid2 : c.id = overId
        · right
          exact eq_of_mem_of_id_nodup hids htD hov (hid2.trans hovid.symm)
        · exfalso
          obtain ⟨hcd, hcp⟩ := inGroupB_iff.mp hg
          have hcW := hW c htD hg hid hid2
          have hcne : c ≠ over := fun h => hid2 (h ▸ hovid)
          have hsone : c.sort_order ≠ over.sort_order := by
            have hsymm : Symmetric (fun a b : DbTask => a.sort_order ≠ b.sort_order) :=
              fun x y h hh => h hh.symm
            exact hdist.forall hsymm (List.mem_filter.mpr ⟨htD, hg⟩)
              (List.mem_filter.mpr ⟨hov, hovg⟩) hcne
          have h1 := (sortLE_same_group_iff
            (a := { mvt with sort_order := newOrder }) (b := c)
            (by simpa using hmd.trans hcd.symm) (by simpa [prioOf] using hmp.trans hcp.symm)
            (show ({ mvt with sort_order := newOrder }).sort_order ≠ c.sort_order by
              simp only
              omega)).mp hle1
          have h2 := (sortLE_same_group_iff (a := c) (b := over)
            (hcd.trans hod.symm) (hcp.trans hop.symm) hsone).mp hle2
          simp only at h1
          omega
      · exfalso
        have hout : doneNum c.done ≠ doneNum ({ mvt with sort_order := newOrder }).done ∨
            prioOf c ≠ prioOf ({ mvt with sort_order := newOrder }) := by
          simp only [prioOf]
          rw [inGroupB_iff] at hg
          push_neg at hg
          by_cases hcd : doneNum c.done = doneNum gd
          · right
            have h5 := hg hcd
            simp only [prioOf] at h5 hmp ⊢
            omega
          · left
            omega
        exact no_outsider_between
          (a := { mvt with sort_order := newOrder }) (b := over) (t := c)
          (by simpa using hmd.trans hod.symm) (by simpa [prioOf] using hmp.trans hop.symm)
          hout hle1 hle2

/-- Core placement lemma for `pos = below`: writing a key that wedges the
moved task immediately above the reference task's key makes the reference
task immediately precede the moved task in the re-sorted day. -/
theorem assembly_below (D : List DbTask) (taskId overId : String) (newOrder : Int)
    (gd : Bool) (gp : Int)
    (hids : (D.map (fun t => t.id)).Nodup)
    (mvt : DbTask) (hmv : mvt ∈ D) (hmvid : mvt.id = taskId)
    (hmvg : inGroupB gd gp mvt = true)
    (over : DbTask) (hov : over ∈ D) (hovid : over.id = overId)
    (hovg : inGroupB gd gp over = true)
    (hneid : overId ≠ taskId)
    (hdist : (D.filter (inGroupB gd gp)).Pairwise
      (fun a b => a.sort_order ≠ b.sort_order))
    (hon : over.sort_order < newOrder)
    (hW : ∀ c ∈ D, inGroupB gd gp c = true → c.id ≠ taskId → c.id ≠ overId →
      (c.sort_order < over.sort_order ∨ newOrder < c.sort_order)) :
    ∃ u v, sortDay (D.map (updSO taskId newOrder)) =
      u ++ over :: ({ mvt with sort_order := newOrder }) :: v := by
  obtain ⟨hmd, hmp⟩ := inGroupB_iff.mp hmvg
  obtain ⟨hod, hop⟩ := inGroupB_iff.mp hovg
  have hovernot : over.id ≠ taskId := hovid ▸ hneid
  have hD2ids : ((D.map (updSO taskId newOrder)).map (fun t => t.id)).Nodup := by
    rw [List.map_map]
    have : ((fun t : DbTask => t.id) ∘ updSO taskId newOrder) = (fun t : DbTask => t.id) := by
      funext t
      exact updSO_id taskId newOrder t
    rw [this]
    exact hids
  have hmoved'mem : ({ mvt with sort_order := newOrder }) ∈ D.map (updSO taskId newOrder) :=
    List.mem_map.mpr ⟨mvt, hmv, updSO_of_eq _ _ _ hmvid⟩
  have hovermem : over ∈ D.map (updSO taskId newOrder) :=
    List.mem_map.mpr ⟨over, hov, updSO_of_ne _ _ _ hovernot⟩
  have hstrict := sortLE_strict_same_group
    (a := over) (b := { mvt with sort_order := newOrder })
    (by simpa using hod.trans hmd.symm) (by simpa [prioOf] using hop.trans hmp.symm)
    (by simpa using hon)
  refine sorted_adjacent_of_between (sortDay_pairwise _) ?_ ?_ ?_ hstrict.2 ?_
  · exact ((sortDay_perm _).nodup_iff).mpr (List.Nodup.of_map _ hD2ids)
  · exact mem_sortDay.mpr hovermem
  · exact mem_sortDay.mpr hmoved'mem
  · intro c hc hle1 hle2
    have hcD2 : c ∈ D.map (updSO taskId newOrder) := mem_sortDay.mp hc
    obtain ⟨t, htD, htc⟩ := List.mem_map.mp hcD2
    by_cases hid : t.id = taskId
    · right
      rw [← htc, updSO_of_eq _ _ _ hid]
      have : t = mvt := eq_of_mem_of_id_nodup hids htD hmv (hid.trans hmvid.symm)
      rw [this]
    · have hct : c = t := by rw [← htc, updSO_of_ne _ _ _ hid]
      subst hct
      by_cases hg : inGroupB gd gp c = true
      · by_cases hid2 : c.id = overId
        · left
          exact eq_of_mem_of_id_nodup hids htD hov (hid2.trans hovid.symm)
        · exfalso
          obtain ⟨hcd, hcp⟩ := inGroupB_iff.mp hg
          have hcW := hW c htD hg hid hid2
          have hcne : c ≠ over := fun h => hid2 (h ▸ hovid)
          have hsone : c.sort_order ≠ over.sort_order := by
            have hsymm : Symmetric (fun a b : DbTask => a.sort_order ≠ b.sort_order) :=
              fun x y h hh => h hh.symm
            exact hdist.forall hsymm (List.mem_filter.mpr ⟨htD, hg⟩)
              (List.mem_filter.mpr ⟨hov, hovg⟩) hcne
          have h1 := (sortLE_same_group_iff (a := over) (b := c)
            (hod.trans hcd.symm) (hop.trans hcp.symm) hsone.symm).mp hle1
          have h2 := (sortLE_same_group_iff
            (a := c) (b := { mvt with sort_order := newOrder })
            (by simpa using hcd.trans hmd.symm) (by simpa [prioOf] using hcp.trans hmp.symm)
            (show c.sort_order ≠ ({ mvt with sort_order := newOrder }).sort_order by
              simp only
              omega)).mp hle2
          simp only at h2
          omega
      · exfalso
        have hout : doneNum c.done ≠ doneNum over.done ∨ prioOf c ≠ prioOf over := by
          rw [inGroupB_iff] at hg
          push_neg at hg
          by_cases hcd : doneNum c.done = doneNum gd
          · right
            have h5 := hg hcd
            simp only [prioOf] at h5 hop ⊢
            omega
          · left
            omega
        exact no_outsider_between
          (a := over) (b := { mvt with sort_order := newOrder }) (t := c)
          (by simpa using hod.trans hmd.symm) (by simpa [prioOf] using hop.trans hmp.symm)
          hout hle1 hle2

/-! ## C3 — the specification-side key rule (refinement reference) -/

/-- The claim's four-way neighbor rule, written from the spec's words:
`none` signals "renormalize" (both neighbors present with gap ≤ 1). -/
def specNeighborRule (p n : Option Int) : Option Int :=
  match p, n with
  | none, none => some 1000
  | none, some nv => some (nv - 1000)
  | some pv, none => some (pv + 1000)
  | some pv, some nv => if nv - pv ≤ 1 then none else some (Int.fdiv (pv + nv) 2)

/-- The claim's evenly-spaced reassignment: `(index+1) × fixed spacing` over
the partition's display-ordered list. -/
def assignKeys (g : List DbTask) : List DbTask :=
  g.mapIdx (fun i t => { t with sort_order := ((i : Int) + 1) * 1000 })

/-- The claim's full key computation, written from the spec's words: compute
the neighbors in the partition-ordered list excluding the moved task at the
insertion index, apply the four-way rule, and if it signals renormalization,
reassign evenly-spaced keys to the whole partition and recompute the
insertion by the same rule against the renormalized neighbors (a second
renormalization signal yields `none`). -/
def specReorderKey (partition : List DbTask) (taskId overId : String)
    (pos : ReorderPos) : Option Int :=
  let without := partition.filter (fun t => !(t.id == taskId))
  let refIdx : Int := without.findIdx (fun t => t.id == overId)
  let ins : Int := if pos = ReorderPos.above then refIdx else refIdx + 1
  match specNeighborRule ((getAt? without (ins - 1)).map (fun t => t.sort_order))
      ((getAt? without ins).map (fun t => t.sort_order)) with
  | some k => some k
  | none =>
    let renormed := assignKeys partition
    let without2 := renormed.filter (fun t => !(t.id == taskId))
    let ref2 : Int := without2.findIdx (fun t => t.id == overId)
    let ins2 : Int := if pos = ReorderPos.above then ref2 else ref2 + 1
    specNeighborRule ((getAt? without2 (ins2 - 1)).map (fun t => t.sort_order))
      ((getAt? without2 ins2).map (fun t => t.sort_order))

/-! ### Facts about `assignKeys` and the renormalization map -/

theorem renormApply_id (updates : List (String × Int)) (t : DbTask) :
    (renormApply updates t).id = t.id := by
  unfold renormApply
  split <;> rfl

theorem renormApply_group (gd : Bool) (gp : Int) (updates : List (String × Int)) (t : DbTask) :
    inGroupB gd gp (renormApply updates t) = inGroupB gd gp t := by
  unfold renormApply
  split <;> rfl

theorem length_assignKeys (g : List DbTask) : (assignKeys g).length = g.length := by
  unfold assignKeys
  exact List.length_mapIdx

theorem getElem_assignKeys (g : List DbTask) (k : Nat) (hk : k < (assignKeys g).length)
    (hk2 : k < g.length) :
    (assignKeys g)[k] =
      { g[k] with sort_order := ((k : Int) + 1) * 1000 } := by
  unfold assignKeys at hk ⊢
  rw [List.getElem_mapIdx]

theorem assignKeys_pairwise_lt (g : List DbTask) :
    (assignKeys g).Pairwise (fun a b => a.sort_order < b.sort_order) := by
  rw [List.pairwise_iff_getElem]
  intro i j hi hj hij
  rw [getElem_assignKeys g i hi (by rw [length_assignKeys] at hi; exact hi),
    getElem_assignKeys g j hj (by rw [length_assignKeys] at hj; exact hj)]
  simp only
  have : (i : Int) < (j : Int) := by exact_mod_cast hij
  nlinarith

theorem mem_assignKeys_dvd {g : List DbTask} {c : DbTask} (hc : c ∈ assignKeys g) :
    (1000 : Int) ∣ c.sort_order ∧ 0 < c.sort_order := by
  obtain ⟨k, hk, hck⟩ := List.mem_iff_getElem.mp hc
  rw [getElem_assignKeys g k hk (by rw [length_assignKeys] at hk; exact hk)] at hck
  rw [← hck]
  constructor
  · exact ⟨(k : Int) + 1, by ring⟩
  · positivity

theorem mem_assignKeys_fields {g : List DbTask} {c : DbTask} (hc : c ∈ assignKeys g) :
    ∃ t ∈ g, c = { t with sort_order := c.sort_order } := by
  obtain ⟨k, hk, hck⟩ := List.mem_iff_getElem.mp hc
  rw [getElem_assignKeys g k hk (by rw [length_assignKeys] at hk; exact hk)] at hck
  have hk2 : k < g.length := by rw [length_assignKeys] at hk; exact hk
  refine ⟨g[k], List.getElem_mem hk2, ?_⟩
  rw [← hck]

theorem assignKeys_map_id (g : List DbTask) :
    (assignKeys g).map (fun t => t.id) = g.map (fun t => t.id) := by
  apply List.ext_getElem
  · rw [List.length_map, List.length_map, length_assignKeys]
  · intro k h1 h2
    rw [List.getElem_map, List.getElem_map]
    rw [getElem_assignKeys g k (by rw [length_assignKeys]; rw [List.length_map] at h2; exact h2)
      (by rw [List.length_map] at h2; exact h2)]

theorem lookupAssoc_mapIdx {l : List DbTask} (hn : (l.map (fun t => t.id)).Nodup)
    (g : Nat → Int) {k : Nat} (hk : k < l.length) :
    lookupAssoc (l.mapIdx (fun i t => (t.id, g i))) (l[k]).id = some (g k) := by
  induction l generalizing g k with
  | nil => cases hk
  | cons x xs ih =>
    rw [List.mapIdx_cons]
    cases k with
    | zero =>
      unfold lookupAssoc
      rw [List.find?_cons_of_pos _ (by simp)]
      rfl
    | succ k =>
      have hk2 : k < xs.length := by simpa using hk
      have hxid : x.id ≠ (xs[k]).id := by
        rw [List.map_cons, List.nodup_cons] at hn
        intro h
        exact hn.1 (h ▸ List.mem_map.mpr ⟨xs[k], List.getElem_mem hk2, rfl⟩)
      unfold lookupAssoc
      rw [List.find?_cons_of_neg _ (by simpa using hxid)]
      have hn2 : (xs.map (fun t => t.id)).Nodup := by
        rw [List.map_cons, List.nodup_cons] at hn
        exact hn.2
      have := ih hn2 (fun i => g (i + 1)) hk2
      unfold lookupAssoc at this
      simpa using this

/-- The placement property the computed key must satisfy relative to the
partition list without the moved task. -/
def wedgeOn (pos : ReorderPos) (gw : List DbTask) (over : DbTask) (newOrder : Int) : Prop :=
  match pos with
  | ReorderPos.above => newOrder < over.sort_order ∧
      ∀ c ∈ gw, c ≠ over → (c.sort_order < newOrder ∨ over.sort_order < c.sort_order)
  | ReorderPos.below => over.sort_order < newOrder ∧
      ∀ c ∈ gw, c ≠ over → (c.sort_order < over.sort_order ∨ newOrder < c.sort_order)

theorem split_pairwise_facts {gw u v : List DbTask} {over : DbTask}
    (hsplit : gw = u ++ over :: v)
    (hs : gw.Pairwise (fun a b => a.sort_order < b.sort_order)) :
    (∀ c ∈ u, c.sort_order < over.sort_order) ∧
    (∀ c ∈ v, over.sort_order < c.sort_order) ∧
    u.Pairwise (fun a b => a.sort_order < b.sort_order) ∧
    (over :: v).Pairwise (fun a b => a.sort_order < b.sort_order) := by
  subst hsplit
  obtain ⟨hu, hov, hcross⟩ := List.pairwise_append.mp hs
  refine ⟨fun c hc => hcross c hc over (List.mem_cons_self over v), ?_, hu, hov⟩
  exact fun c hc => (List.pairwise_cons.mp hov).1 c hc

theorem fdiv_strict_bounds {p n : Int} (h : n - p ≥ 2) :
    p < Int.fdiv (p + n) 2 ∧ Int.fdiv (p + n) 2 < n := by
  rw [Int.fdiv_eq_ediv _ (by omega)]
  omega

/-- The four-way rule places the computed key strictly between the two
neighbors of the insertion point, which wedges the moved task next to the
reference task in key order. -/
theorem reorderKeyBasic_wedge (gw u v : List DbTask) (over : DbTask)
    (overId : String) (pos : ReorderPos) (po no : Option Int)
    (hsplit : gw = u ++ over :: v)
    (hs : gw.Pairwise (fun a b => a.sort_order < b.sort_order))
    (hn : (gw.map (fun t => t.id)).Nodup)
    (hoid : over.id = overId)
    (hpn : reorderNeighbors gw overId pos = (po, no))
    (hgap : ∀ pv nv, po = some pv → no = some nv → nv - pv ≥ 2) :
    wedgeOn pos gw over (reorderKeyBasic po no) := by
  obtain ⟨hu, hv, hupw, hovpw⟩ := split_pairwise_facts hsplit hs
  have hfind : gw.findIdx (fun t => t.id == overId) = u.length := by
    rw [hsplit]
    exact findIdx_id_of_split (hsplit ▸ hn) hoid
  cases pos with
  | above =>
    have hins : reorderNeighbors gw overId ReorderPos.above =
        ((getAt? gw ((u.length : Int) - 1)).map (fun t => t.sort_order),
         (getAt? gw (u.length : Int)).map (fun t => t.sort_order)) := by
      unfold reorderNeighbors
      rw [hfind]
      simp
    have hnext : getAt? gw ((u.length : Int)) = some over := by
      rw [hsplit]
      exact getAt?_append_len u over v
    rcases List.eq_nil_or_concat u with rfl | ⟨u2, p, rfl⟩
    · have hprev : getAt? gw (((List.nil : List DbTask).length : Int) - 1) = none :=
        getAt?_neg (by simp)
      rw [hins, hprev, hnext] at hpn
      simp only [Option.map_none, Option.map_some, Option.map] at hpn
      injection hpn with hpo hno
      subst hpo hno
      simp only [reorderKeyBasic, wedgeOn]
      refine ⟨by omega, ?_⟩
      intro c hc hcne
      rw [hsplit] at hc
      rcases List.mem_cons.mp hc with rfl | hcv
      · exact absurd rfl hcne
      · exact Or.inr (hv c hcv)
    · simp only [List.concat_eq_append] at hsplit hu hupw hfind hnext hins
      have hlen : (((u2 ++ [p]).length : Int)) - 1 = (u2.length : Int) := by
        simp
      have hprev : getAt? gw (((u2 ++ [p]).length : Int) - 1) = some p := by
        rw [hlen, hsplit, List.append_assoc, List.singleton_append]
        exact getAt?_append_len u2 p (over :: v)
      rw [hins, hprev, hnext] at hpn
      simp only [Option.map_some, Option.map] at hpn
      injection hpn with hpo hno
      subst hpo hno
      have hg := hgap p.sort_order over.sort_order rfl rfl
      simp only [reorderKeyBasic, wedgeOn]
      obtain ⟨hb1, hb2⟩ := fdiv_strict_bounds hg
      refine ⟨hb2, ?_⟩
      intro c hc hcne
      rw [hsplit] at hc
      rcases List.mem_append.mp hc with hcu | hcov
      · rcases List.mem_append.mp hcu with hcu2 | hcp
        · left
          have : c.sort_order < p.sort_order := by
            obtain ⟨hu2pw, _, hcross⟩ := List.pairwise_append.mp hupw
            exact hcross c hcu2 p (List.mem_singleton.mpr rfl)
          omega
        · left
          rw [List.mem_singleton.mp hcp]
          exact hb1
      · rcases List.mem_cons.mp hcov with rfl | hcv
        · exact absurd rfl hcne
        · exact Or.inr (hv c hcv)
  | below =>
    have hins : reorderNeighbors gw overId ReorderPos.below =
        ((getAt? gw ((u.length : Int) + 1 - 1)).map (fun t => t.sort_order),
         (getAt? gw ((u.length : Int) + 1)).map (fun t => t.sort_order)) := by
      unfold reorderNeighbors
      rw [hfind]
      simp
    have hlen2 : ((u.length : Int)) + 1 - 1 = (u.length : Int) := by omega
    have hprev : getAt? gw ((u.length : Int) + 1 - 1) = some over := by
      rw [hlen2, hsplit]
      exact getAt?_append_len u over v
    have hnext : getAt? gw ((u.length : Int) + 1) = v.head? := by
      rw [hsplit]
      exact getAt?_append_len_add_one u over v
    cases v with
    | nil =>
      rw [hins, hprev, hnext] at hpn
      simp only [Option.map_some, Option.map, List.head?] at hpn
      injection hpn with hpo hno
      subst hpo hno
      simp only [reorderKeyBasic, wedgeOn]
      refine ⟨by omega, ?_⟩
      intro c hc hcne
      rw [hsplit] at hc
      rcases List.mem_append.mp hc with hcu | hcov
      · exact Or.inl (hu c hcu)
      · rcases List.mem_cons.mp hcov with rfl | hcv
        · exact absurd rfl hcne
        · cases hcv
    | cons nb v2 =>
      rw [hins, hprev, hnext] at hpn
      simp only [Option.map_some, Option.map, List.head?] at hpn
      injection hpn with hpo hno
      subst hpo hno
      have hg := hgap over.sort_order nb.sort_order rfl rfl
      simp only [reorderKeyBasic, wedgeOn]
      obtain ⟨hb1, hb2⟩ := fdiv_strict_bounds hg
      refine ⟨hb1, ?_⟩
      intro c hc hcne
      rw [hsplit] at hc
      rcases List.mem_append.mp hc with hcu | hcov
      · exact Or.inl (hu c hcu)
      · rcases List.mem_cons.mp hcov with rfl | hcv
        · exact absurd rfl hcne
        · rcases List.mem_cons.mp hcv with rfl | hcv2
          · exact Or.inr hb2
          · right
            have : nb.sort_order < c.sort_order :=
              (List.pairwise_cons.mp (List.pairwise_cons.mp hovpw).2).1 c hcv2
            omega

/-- Renormalizing a partition reassigns exactly the evenly-spaced keys to its
members in display order: the re-sorted partition of the renormalized day is
`assignKeys` of the old sorted partition. -/
theorem renorm_group_eq (st : AppState) (iso : ISODate) (gd : Bool) (gp : Int)
    (hids : ((lookupDay st.tasksByDate iso).map (fun t => t.id)).Nodup) :
    (sortDay (lookupDay (renormalizeGroupRun st iso gd gp).state.tasksByDate iso)).filter
      (fun t => inGroupB gd gp t) =
    assignKeys ((sortDay (lookupDay st.tasksByDate iso)).filter
      (fun t => inGroupB gd gp t)) := by
  have hD1 : lookupDay (renormalizeGroupRun st iso gd gp).state.tasksByDate iso =
      (lookupDay st.tasksByDate iso).map (renormApply
        (((sortDay (lookupDay st.tasksByDate iso)).filter
          (fun t => inGroupB gd gp t)).mapIdx
            (fun i t => (t.id, ((i : Int) + 1) * 1000)))) := by
    unfold renormalizeGroupRun
    dsimp only
    rw [lookupDay_setDay_self]
  set D := lookupDay st.tasksByDate iso with hD
  set group := (sortDay D).filter (fun t => inGroupB gd gp t) with hgroup
  set updates := group.mapIdx (fun i t => (t.id, ((i : Int) + 1) * 1000)) with hupdates
  have hgids : (group.map (fun t => t.id)).Nodup := by
    have hsub : List.Sublist group (sortDay D) := List.filter_sublist _
    exact ((hsub.map (fun t => t.id)).nodup (nodup_ids_sortDay hids))
  have hmapgroup : group.map (renormApply updates) = assignKeys group := by
    apply List.ext_getElem
    · rw [List.length_map, length_assignKeys]
    · intro k h1 h2
      rw [List.getElem_map]
      rw [getElem_assignKeys group k h2 (by rw [List.length_map] at h1; exact h1)]
      have hk : k < group.length := by
        rw [List.length_map] at h1
        exact h1
      unfold renormApply
      have hlk : lookupAssoc updates (group[k]).id = some (((k : Int) + 1) * 1000) :=
        lookupAssoc_mapIdx hgids (fun i => ((i : Int) + 1) * 1000) hk
      rw [hlk]
  have hfilter : (D.map (renormApply updates)).filter (fun t => inGroupB gd gp t) =
      (D.filter (fun t => inGroupB gd gp t)).map (renormApply updates) := by
    rw [List.filter_map]
    have : ((fun t => inGroupB gd gp t) ∘ renormApply updates) =
        (fun t => inGroupB gd gp t) := by
      funext t
      exact renormApply_group gd gp updates t
    rw [this]
  have hperm : List.Perm
      ((sortDay (D.map (renormApply updates))).filter (fun t => inGroupB gd gp t))
      (assignKeys group) := by
    have p1 : List.Perm
        ((sortDay (D.map (renormApply updates))).filter (fun t => inGroupB gd gp t))
        ((D.map (renormApply updates)).filter (fun t => inGroupB gd gp t)) :=
      (sortDay_perm _).filter _
    rw [hfilter] at p1
    have p2 : List.Perm (D.filter (fun t => inGroupB gd gp t)) group :=
      ((sortDay_perm D).filter _).symm
    have p3 := p2.map (renormApply updates)
    rw [hmapgroup] at p3
    exact p1.trans p3
  have hlt2 : (assignKeys group).Pairwise (fun a b => a.sort_order < b.sort_order) :=
    assignKeys_pairwise_lt group
  have hne2 : (assignKeys group).Pairwise (fun a b => a.sort_order ≠ b.sort_order) :=
    hlt2.imp (fun h => by omega)
  have hlt1 : ((sortDay (D.map (renormApply updates))).filter
      (fun t => inGroupB gd gp t)).Pairwise (fun a b => a.sort_order < b.sort_order) := by
    have hle : ((sortDay (D.map (renormApply updates))).filter
        (fun t => inGroupB gd gp t)).Pairwise (fun a b => sortLE a b = true) :=
      (sortDay_pairwise _).filter _
    have hne1 : ((sortDay (D.map (renormApply updates))).filter
        (fun t => inGroupB gd gp t)).Pairwise (fun a b => a.sort_order ≠ b.sort_order) :=
      (hperm.pairwise_iff (fun h => fun hh => h hh.symm)).mpr hne2
    refine (hle.and hne1).imp_of_mem ?_
    intro a b ha hb hab
    obtain ⟨hda, hpa⟩ := inGroupB_iff.mp (List.mem_filter.mp ha).2
    obtain ⟨hdb, hpb⟩ := inGroupB_iff.mp (List.mem_filter.mp hb).2
    exact (sortLE_same_group_iff (hda.trans hdb.symm) (hpa.trans hpb.symm) hab.2).mp hab.1
  rw [hD1]
  haveI : IsAntisymm DbTask (fun a b => a.sort_order < b.sort_order) :=
    ⟨fun a b h1 h2 => absurd h1 (by omega)⟩
  exact List.eq_of_perm_of_sorted hperm hlt1 hlt2

theorem specNeighborRule_eq_basic (po no : Option Int)
    (hgap : ∀ pv nv, po = some pv → no = some nv → nv - pv ≥ 2) :
    specNeighborRule po no = some (reorderKeyBasic po no) := by
  cases po with
  | none => cases no <;> rfl
  | some pv =>
    cases no with
    | none => rfl
    | some nv =>
      have := hgap pv nv rfl rfl
      show (if nv - pv ≤ 1 then (none : Option Int) else some (Int.fdiv (pv + nv) 2)) =
        some (Int.fdiv (pv + nv) 2)
      rw [if_neg (by omega)]

theorem reorderNeighbors_above_snd {gw u v : List DbTask} {over : DbTask} {overId : String}
    (hsplit : gw = u ++ over :: v) (hn : (gw.map (fun t => t.id)).Nodup)
    (hoid : over.id = overId) :
    (reorderNeighbors gw overId ReorderPos.above).2 = some over.sort_order := by
  have hfind : gw.findIdx (fun t => t.id == overId) = u.length := by
    rw [hsplit]
    exact findIdx_id_of_split (hsplit ▸ hn) hoid
  unfold reorderNeighbors
  dsimp only
  rw [hfind]
  rw [if_pos rfl]
  rw [hsplit, getAt?_append_len u over v]
  rfl

theorem reorderNeighbors_below_fst {gw u v : List DbTask} {over : DbTask} {overId : String}
    (hsplit : gw = u ++ over :: v) (hn : (gw.map (fun t => t.id)).Nodup)
    (hoid : over.id = overId) :
    (reorderNeighbors gw overId ReorderPos.below).1 = some over.sort_order := by
  have hfind : gw.findIdx (fun t => t.id == overId) = u.length := by
    rw [hsplit]
    exact findIdx_id_of_split (hsplit ▸ hn) hoid
  unfold reorderNeighbors
  dsimp only
  rw [hfind]
  rw [if_neg (by decide : ¬(ReorderPos.below = ReorderPos.above))]
  have h1 : ((u.length : Int)) + 1 - 1 = (u.length : Int) := by omega
  rw [h1, hsplit, getAt?_append_len u over v]
  rfl

theorem getAt?_some_elim {gw : List DbTask} {k : Int} {a : DbTask}
    (h : getAt? gw k = some a) :
    0 ≤ k ∧ ∃ hk : k.toNat < gw.length, gw[k.toNat] = a := by
  unfold getAt? at h
  by_cases hneg : k < 0
  · rw [if_pos hneg] at h
    cases h
  · rw [if_neg hneg] at h
    rw [List.get?_eq_getElem?] at h
    have hlt : k.toNat < gw.length := by
      by_contra hge
      rw [List.getElem?_eq_none (by omega)] at h
      cases h
    rw [List.getElem?_eq_getElem hlt] at h
    exact ⟨by omega, hlt, Option.some.inj h⟩

/-- Both neighbors of any insertion point in a 1000-spaced, strictly sorted
list are at least 1000 apart. -/
theorem neighbors_gap {gw : List DbTask} {overId : String} {pos : ReorderPos}
    (hlt : gw.Pairwise (fun a b => a.sort_order < b.sort_order))
    (hdvd : ∀ c ∈ gw, (1000 : Int) ∣ c.sort_order) :
    ∀ pv nv, (reorderNeighbors gw overId pos).1 = some pv →
      (reorderNeighbors gw overId pos).2 = some nv → nv - pv ≥ 2 := by
  intro pv nv hp hn
  unfold reorderNeighbors at hp hn
  dsimp only at hp hn
  set ins : Int := if pos = ReorderPos.above then
    ((gw.findIdx (fun t => t.id == overId) : Int)) else
    ((gw.findIdx (fun t => t.id == overId) : Int)) + 1 with hins
  obtain ⟨a, ha, hav⟩ : ∃ a, getAt? gw (ins - 1) = some a ∧ a.sort_order = pv := by
    cases hga : getAt? gw (ins - 1) with
    | none => rw [hga] at hp; cases hp
    | some a =>
      rw [hga] at hp
      exact ⟨a, rfl, Option.some.inj hp⟩
  obtain ⟨b, hb, hbv⟩ : ∃ b, getAt? gw ins = some b ∧ b.sort_order = nv := by
    cases hgb : getAt? gw ins with
    | none => rw [hgb] at hn; cases hn
    | some b =>
      rw [hgb] at hn
      exact ⟨b, rfl, Option.some.inj hn⟩
  obtain ⟨hk1, hka, hae⟩ := getAt?_some_elim ha
  obtain ⟨hk2, hkb, hbe⟩ := getAt?_some_elim hb
  have hidx : (ins - 1).toNat < ins.toNat := by omega
  have hltab : a.sort_order < b.sort_order := by
    rw [← hae, ← hbe]
    exact List.pairwise_iff_getElem.mp hlt _ _ hka hkb hidx
  have hda := hdvd a (by rw [← hae]; exact List.getElem_mem hka)
  have hdb := hdvd b (by rw [← hbe]; exact List.getElem_mem hkb)
  obtain ⟨ka, hka2⟩ := hda
  obtain ⟨kb, hkb2⟩ := hdb
  omega

/-- The moved task sits immediately before the reference task (matching by
id) in the given list. -/
def adjacentById (l : List DbTask) (i j : String) : Prop :=
  ∃ u m o v, l = u ++ m :: o :: v ∧ m.id = i ∧ o.id = j

/-- The membership-level wedge over a whole day list. -/
def wedgeD (pos : ReorderPos) (D : List DbTask) (gd : Bool) (gp : Int)
    (taskId overId : String) (over₁ : DbTask) (newOrder : Int) : Prop :=
  match pos with
  | ReorderPos.above => newOrder < over₁.sort_order ∧
      ∀ c ∈ D, inGroupB gd gp c = true → c.id ≠ taskId → c.id ≠ overId →
        (c.sort_order < newOrder ∨ over₁.sort_order < c.sort_order)
  | ReorderPos.below => over₁.sort_order < newOrder ∧
      ∀ c ∈ D, inGroupB gd gp c = true → c.id ≠ taskId → c.id ≠ overId →
        (c.sort_order < over₁.sort_order ∨ newOrder < c.sort_order)

theorem wedgeD_of_wedgeOn {pos : ReorderPos} {D₁ : List DbTask} {gd : Bool} {gp : Int}
    {taskId overId : String} {over₁ : DbTask} {newOrder : Int}
    (hw : wedgeOn pos
      (((sortDay D₁).filter (fun t => inGroupB gd gp t)).filter
        (fun t => !(t.id == taskId))) over₁ newOrder)
    (hovid : over₁.id = overId) :
    wedgeD pos D₁ gd gp taskId overId over₁ newOrder := by
  cases pos with
  | above =>
    refine ⟨hw.1, ?_⟩
    intro c hc hg h1 h2
    refine hw.2 c ?_ (fun he => h2 (he ▸ hovid))
    exact List.mem_filter.mpr ⟨List.mem_filter.mpr ⟨mem_sortDay.mpr hc, hg⟩, by simpa using h1⟩
  | below =>
    refine ⟨hw.1, ?_⟩
    intro c hc hg h1 h2
    refine hw.2 c ?_ (fun he => h2 (he ▸ hovid))
    exact List.mem_filter.mpr ⟨List.mem_filter.mpr ⟨mem_sortDay.mpr hc, hg⟩, by simpa using h1⟩

theorem reorderFinish_day (st : AppState) (evs : List Evt) (iso taskId : String)
    (newOrder : Int) (env : RemoteEnv) :
    lookupDay (reorderFinish st evs iso taskId newOrder true env).state.tasksByDate iso =
      (lookupDay st.tasksByDate iso).map (updSO taskId newOrder) := by
  unfold reorderFinish
  rw [if_pos rfl]
  dsimp only
  rw [lookupDay_setDay_self]
  rfl

theorem specReorderKey_eq (partition : List DbTask) (taskId overId : String)
    (pos : ReorderPos) :
    specReorderKey partition taskId overId pos =
      (match specNeighborRule
          (reorderNeighbors (partition.filter (fun t => !(t.id == taskId))) overId pos).1
          (reorderNeighbors (partition.filter (fun t => !(t.id == taskId))) overId pos).2 with
       | some k => some k
       | none =>
         specNeighborRule
           (reorderNeighbors ((assignKeys partition).filter (fun t => !(t.id == taskId)))
             overId pos).1
           (reorderNeighbors ((assignKeys partition).filter (fun t => !(t.id == taskId)))
             overId pos).2) := rfl

theorem renormApply_set_so (updates : List (String × Int)) (t : DbTask) (k : Int) :
    ({ renormApply updates t with sort_order := k } : DbTask) = { t with sort_order := k } := by
  unfold renormApply
  split <;> rfl

/-- Packaging of the common tail of the reorder analysis: from the wedge on
the (possibly renormalized) state the conclusion's existential bundle
follows. -/
theorem central_package (stA : AppState) (env : RemoteEnv) (evs : List Evt)
    (iso taskId overId : String) (pos : ReorderPos) (gd : Bool) (gp : Int)
    (origGroup : List DbTask) (mvt mvtA overA : DbTask) (k : Int)
    (hidsA : ((lookupDay stA.tasksByDate iso).map (fun t => t.id)).Nodup)
    (hmA : mvtA ∈ lookupDay stA.tasksByDate iso) (hmAid : mvtA.id = taskId)
    (hmAg : inGroupB gd gp mvtA = true)
    (hmAeq : ({ mvtA with sort_order := k } : DbTask) = { mvt with sort_order := k })
    (hoA : overA ∈ lookupDay stA.tasksByDate iso) (hoAid : overA.id = overId)
    (hoAg : inGroupB gd gp overA = true)
    (hdistA : ((lookupDay stA.tasksByDate iso).filter (inGroupB gd gp)).Pairwise
      (fun a b => a.sort_order ≠ b.sort_order))
    (hw : wedgeOn pos (((sortDay (lookupDay stA.tasksByDate iso)).filter
        (fun t => inGroupB gd gp t)).filter (fun t => !(t.id == taskId))) overA k)
    (hspec : specReorderKey origGroup taskId overId pos = some k) :
    ∃ (D₁ : List DbTask) (m1 o1 : DbTask) (newOrder : Int),
      lookupDay (reorderFinish stA evs iso taskId k true env).state.tasksByDate iso =
        D₁.map (updSO taskId newOrder) ∧
      (D₁.map (fun t => t.id)).Nodup ∧
      m1 ∈ D₁ ∧ m1.id = taskId ∧ inGroupB gd gp m1 = true ∧
      ({ m1 with sort_order := newOrder } : DbTask) = { mvt with sort_order := newOrder } ∧
      o1 ∈ D₁ ∧ o1.id = overId ∧ inGroupB gd gp o1 = true ∧
      (D₁.filter (inGroupB gd gp)).Pairwise (fun a b => a.sort_order ≠ b.sort_order) ∧
      wedgeD pos D₁ gd gp taskId overId o1 newOrder ∧
      specReorderKey origGroup taskId overId pos = some newOrder :=
  ⟨lookupDay stA.tasksByDate iso, mvtA, overA, k,
    reorderFinish_day stA evs iso taskId k env, hidsA, hmA, hmAid, hmAg, hmAeq,
    hoA, hoAid, hoAg, hdistA, wedgeD_of_wedgeOn hw hoAid, hspec⟩

/-- Navigation through `applyReorderWithinDay`'s branches for a valid
same-partition request that does not hit the renormalization fallback (both
neighbors present at gap ≤ 1): outside that branch the operation writes one
key to the moved task, that key satisfies the wedge placement property
against the reference task, and it equals the key the spec's rule computes.
The renormalization branch itself recomputes from the stale pre-renormalization
snapshot and violates the placement property (see the C1/C3 theorems). -/
theorem reorder_central (st : AppState) (env : RemoteEnv) (iso taskId overId : String)
    (pos : ReorderPos) (mvt over : DbTask)
    (hids : ((lookupDay st.tasksByDate iso).map (fun t => t.id)).Nodup)
    (hmv : mvt ∈ lookupDay st.tasksByDate iso) (hmvid : mvt.id = taskId)
    (hov : over ∈ lookupDay st.tasksByDate iso) (hovid : over.id = overId)
    (htid : taskId ≠ "") (hoid2 : overId ≠ "") (hne : taskId ≠ overId)
    (hsame : doneNum mvt.done = doneNum over.done ∧ prioOf mvt = prioOf over)
    (hdist : ((lookupDay st.tasksByDate iso).filter (inGroupB mvt.done (prioOf mvt))).Pairwise
      (fun a b => a.sort_order ≠ b.sort_order))
    (hgap2 : ∀ pv nv, reorderNeighbors (((sortDay (lookupDay st.tasksByDate iso)).filter
        (fun t => inGroupB mvt.done (prioOf mvt) t)).filter (fun t => !(t.id == taskId)))
        overId pos = (some pv, some nv) → 2 ≤ nv - pv) :
    ∃ (D₁ : List DbTask) (m1 o1 : DbTask) (newOrder : Int),
      lookupDay (applyReorderRun st iso taskId overId pos true env).state.tasksByDate iso =
        D₁.map (updSO taskId newOrder) ∧
      (D₁.map (fun t => t.id)).Nodup ∧
      m1 ∈ D₁ ∧ m1.id = taskId ∧ inGroupB mvt.done (prioOf mvt) m1 = true ∧
      ({ m1 with sort_order := newOrder } : DbTask) = { mvt with sort_order := newOrder } ∧
      o1 ∈ D₁ ∧ o1.id = overId ∧ inGroupB mvt.done (prioOf mvt) o1 = true ∧
      (D₁.filter (inGroupB mvt.done (prioOf mvt))).Pairwise
        (fun a b => a.sort_order ≠ b.sort_order) ∧
      wedgeD pos D₁ mvt.done (prioOf mvt) taskId overId o1 newOrder ∧
      specReorderKey ((sortDay (lookupDay st.tasksByDate iso)).filter
        (fun t => inGroupB mvt.done (prioOf mvt) t)) taskId overId pos = some newOrder := by
  unfold applyReorderRun
  rw [if_neg (by simp [htid, hoid2, hne])]
  dsimp only
  have hidsS := nodup_ids_sortDay hids
  rw [find?_id_eq_some_of_mem hidsS (mem_sortDay.mpr hmv) hmvid,
      find?_id_eq_some_of_mem hidsS (mem_sortDay.mpr hov) hovid]
  dsimp only
  have hb : (doneNum mvt.done == doneNum over.done && prioOf mvt == prioOf over) = true := by
    simp [hsame.1, hsame.2]
  rw [hb]
  rw [if_neg (by decide)]
  set D := lookupDay st.tasksByDate iso with hD
  set gd := mvt.done with hgd
  set gp := prioOf mvt with hgp
  set group := (sortDay D).filter (fun t => inGroupB gd gp t) with hgroup
  have hmvg : inGroupB gd gp mvt = true := by
    simp [inGroupB, hgd, hgp]
  have hovg : inGroupB gd gp over = true := by
    simp [inGroupB, hsame.1, hsame.2]
  have hmvG : mvt ∈ group := by
    rw [hgroup]
    exact List.mem_filter.mpr ⟨mem_sortDay.mpr hmv, hmvg⟩
  have hovG : over ∈ group := by
    rw [hgroup]
    exact List.mem_filter.mpr ⟨mem_sortDay.mpr hov, hovg⟩
  have hany1 : group.any (fun t => t.id == taskId) = true :=
    List.any_eq_true.mpr ⟨mvt, hmvG, by simp [hmvid]⟩
  have hany2 : group.any (fun t => t.id == overId) = true :=
    List.any_eq_true.mpr ⟨over, hovG, by simp [hovid]⟩
  rw [hany1, hany2, if_neg (by decide)]
  have hgids : (group.map (fun t => t.id)).Nodup := by
    rw [hgroup]
    exact ((List.filter_sublist _).map _).nodup hidsS
  have hglt : group.Pairwise (fun a b => a.sort_order < b.sort_order) := by
    rw [hgroup]
    exact group_pairwise_lt hdist
  set gw := group.filter (fun t => !(t.id == taskId)) with hgw
  have hovgw : over ∈ gw := by
    rw [hgw]
    refine List.mem_filter.mpr ⟨hovG, ?_⟩
    simp only [hovid, Bool.not_eq_eq_eq_not, Bool.not_true, beq_eq_false_iff_ne, ne_eq]
    exact fun h => hne h.symm
  obtain ⟨u, v, hsplit⟩ := List.append_of_mem hovgw
  have hgwlt : gw.Pairwise (fun a b => a.sort_order < b.sort_order) := by
    rw [hgw]
    exact hglt.filter _
  have hgwids : (gw.map (fun t => t.id)).Nodup := by
    rw [hgw]
    exact ((List.filter_sublist _).map _).nodup hgids
  cases pos with
  | above =>
    have hsnd := reorderNeighbors_above_snd hsplit hgwids hovid
    rcases hpn2 : reorderNeighbors gw overId ReorderPos.above with ⟨po, no⟩
    rw [hpn2] at hsnd
    dsimp only at hsnd
    subst hsnd
    cases po with
    | none =>
      have hgapf : ∀ a b, (none : Option Int) = some a → some over.sort_order = some b →
          b - a ≥ 2 := by
        intro a b ha _
        cases ha
      have hwedge := reorderKeyBasic_wedge gw u v over overId ReorderPos.above none
        (some over.sort_order) hsplit hgwlt hgwids hovid hpn2 hgapf
      have hspec : specReorderKey group taskId overId ReorderPos.above =
          some (reorderKeyBasic none (some over.sort_order)) := by
        rw [specReorderKey_eq, ← hgw, hpn2]
        rfl
      exact central_package st env [] iso taskId overId ReorderPos.above gd gp group mvt
        mvt over (reorderKeyBasic none (some over.sort_order)) hids hmv hmvid hmvg rfl
        hov hovid hovg hdist hwedge hspec
    | some pv =>
      dsimp only
      by_cases hle : over.sort_order - pv ≤ 1
      · exact absurd (hgap2 pv over.sort_order hpn2) (by omega)
      · rw [if_neg hle]
        have hgapf : ∀ a b, some pv = some a → some over.sort_order = some b →
            b - a ≥ 2 := by
          intro a b ha hb
          injection ha with ha
          injection hb with hb
          omega
        have hwedge := reorderKeyBasic_wedge gw u v over overId ReorderPos.above (some pv)
          (some over.sort_order) hsplit hgwlt hgwids hovid hpn2 hgapf
        have hspec : specReorderKey group taskId overId ReorderPos.above =
            some (reorderKeyBasic (some pv) (some over.sort_order)) := by
          rw [specReorderKey_eq, ← hgw, hpn2]
          dsimp only
          have h1 : specNeighborRule (some pv) (some over.sort_order) =
              some (reorderKeyBasic (some pv) (some over.sort_order)) :=
            specNeighborRule_eq_basic _ _ hgapf
          rw [h1]
        exact central_package st env [] iso taskId overId ReorderPos.above gd gp group mvt
          mvt over (reorderKeyBasic (some pv) (some over.sort_order)) hids hmv hmvid hmvg
          rfl hov hovid hovg hdist hwedge hspec
  | below =>
    have hfst := reorderNeighbors_below_fst hsplit hgwids hovid
    rcases hpn2 : reorderNeighbors gw overId ReorderPos.below with ⟨po, no⟩
    rw [hpn2] at hfst
    dsimp only at hfst
    subst hfst
    cases no with
    | none =>
      have hgapf : ∀ a b, some over.sort_order = some a → (none : Option Int) = some b →
          b - a ≥ 2 := by
        intro a b _ hb
        cases hb
      have hwedge := reorderKeyBasic_wedge gw u v over overId ReorderPos.below
        (some over.sort_order) none hsplit hgwlt hgwids hovid hpn2 hgapf
      have hspec : specReorderKey group taskId overId ReorderPos.below =
          some (reorderKeyBasic (some over.sort_order) none) := by
        rw [specReorderKey_eq, ← hgw, hpn2]
        rfl
      exact central_package st env [] iso taskId overId ReorderPos.below gd gp group mvt
        mvt over (reorderKeyBasic (some over.sort_order) none) hids hmv hmvid hmvg rfl
        hov hovid hovg hdist hwedge hspec
    | some nv =>
      dsimp only
      by_cases hle : nv - over.sort_order ≤ 1
      · exact absurd (hgap2 over.sort_order nv hpn2) (by omega)
      · rw [if_neg hle]
        have hgapf : ∀ a b, some over.sort_order = some a → some nv = some b →
            b - a ≥ 2 := by
          intro a b ha hb
          injection ha with ha
          injection hb with hb
          omega
        have hwedge := reorderKeyBasic_wedge gw u v over overId ReorderPos.below
          (some over.sort_order) (some nv) hsplit hgwlt hgwids hovid hpn2 hgapf
        have hspec : specReorderKey group taskId overId ReorderPos.below =
            some (reorderKeyBasic (some over.sort_order) (some nv)) := by
          rw [specReorderKey_eq, ← hgw, hpn2]
          dsimp only
          have h1 : specNeighborRule (some over.sort_order) (some nv) =
              some (reorderKeyBasic (some over.sort_order) (some nv)) :=
            specNeighborRule_eq_basic _ _ hgapf
          rw [h1]
        exact central_package st env [] iso taskId overId ReorderPos.below gd gp group mvt
          mvt over (reorderKeyBasic (some over.sort_order) (some nv)) hids hmv hmvid hmvg
          rfl hov hovid hovg hdist hwedge hspec

theorem sortDay_of_sorted {l : List DbTask}
    (h : l.Pairwise (fun a b => sortLE a b = true)) : sortDay l = l :=
  List.mergeSort_of_sorted h

/-! ## The stale-closure renormalization defect (C1, C3)

Three tasks of one `(done, priority)` partition with keys `1000, 1001, 2000`;
dragging the third above the second forces the renormalization fallback
(neighbor gap `1001 - 1000 = 1`). -/

def tA : DbTask :=
  { id := "a1", user_id := "u", date := "2026-01-01", title := "Erste",
    category := none, done := false, created_at := none, priority := 1,
    repeat_every_days := none, repeat_until := none, sort_order := 1000,
    notes := none }

def tB : DbTask :=
  { id := "b1", user_id := "u", date := "2026-01-01", title := "Zweite",
    category := none, done := false, created_at := none, priority := 1,
    repeat_every_days := none, repeat_until := none, sort_order := 1001,
    notes := none }

def tC : DbTask :=
  { id := "c1", user_id := "u", date := "2026-01-01", title := "Dritte",
    category := none, done := false, created_at := none, priority := 1,
    repeat_every_days := none, repeat_until := none, sort_order := 2000,
    notes := none }

def bugState : AppState :=
  { tasksByDate := [("2026-01-01", [tA, tB, tC])], categories := [] }

theorem bug_day_sorted :
    sortDay (lookupDay bugState.tasksByDate "2026-01-01") = [tA, tB, tC] := by
  have h0 : lookupDay bugState.tasksByDate "2026-01-01" = [tA, tB, tC] := rfl
  rw [h0]
  exact sortDay_of_sorted (by decide)

/-- Evaluation of the defective reorder: the renormalization commits keys
`1000, 2000, 3000`, but the key for the moved task is recomputed from the
stale pre-renormalization neighbors (`1000` and `1001`), yielding
`⌊2001/2⌋ = 1000` — which collides with the first task's renormalized key. -/
theorem bug_eval :
    lookupDay (applyReorderRun bugState "2026-01-01" "c1" "b1" ReorderPos.above true
      demoEnv).state.tasksByDate "2026-01-01" =
      [{ tA with sort_order := 1000 }, { tB with sort_order := 2000 },
       { tC with sort_order := 1000 }] := by
  unfold applyReorderRun renormalizeGroupRun
  rw [bug_day_sorted]
  decide

/-- C1: refuted on the program — a code bug. With same-partition keys
`1000, 1001, 2000` (pairwise distinct, so the claim's precondition holds),
dragging the third task above the second is a valid same-partition request,
but it triggers the renormalization fallback, whose recomputation reads the
stale pre-renormalization snapshot (`getSortedDayTasks` closes over the
render-captured `tasksByDate`): the moved task receives key `⌊2001/2⌋ = 1000`,
colliding with the first task's renormalized key, so the partition's
`sort_order` values are no longer pairwise distinct after the operation. -/
theorem reorder_renorm_duplicates_keys :
    (((lookupDay bugState.tasksByDate "2026-01-01").map (fun t => t.id)).Nodup ∧
      tC ∈ lookupDay bugState.tasksByDate "2026-01-01" ∧ tC.id = "c1" ∧
      tB ∈ lookupDay bugState.tasksByDate "2026-01-01" ∧ tB.id = "b1" ∧
      ("c1" : String) ≠ "" ∧ ("b1" : String) ≠ "" ∧ ("c1" : String) ≠ "b1" ∧
      doneNum tC.done = doneNum tB.done ∧ prioOf tC = prioOf tB ∧
      ((lookupDay bugState.tasksByDate "2026-01-01").filter
        (inGroupB tC.done (prioOf tC))).Pairwise
        (fun a b => a.sort_order ≠ b.sort_order)) ∧
    ¬ ((lookupDay (applyReorderRun bugState "2026-01-01" "c1" "b1" ReorderPos.above true
        demoEnv).state.tasksByDate "2026-01-01").filter
      (inGroupB tC.done (prioOf tC))).Pairwise
      (fun a b => a.sort_order ≠ b.sort_order) := by
  refine ⟨by decide, ?_⟩
  rw [bug_eval]
  decide

/-- C3: refuted on the program — a code bug. In the renormalization branch
the spec's rule recomputes against the renormalized neighbors (`1000` and
`2000`), giving `⌊3000/2⌋ = 1500`, but the program recomputes from the stale
pre-renormalization neighbors (`1000` and `1001`) and stores
`⌊2001/2⌋ = 1000`, so the stored key differs from the spec's key. -/
theorem reorder_renorm_key_deviates :
    specReorderKey ((sortDay (lookupDay bugState.tasksByDate "2026-01-01")).filter
      (fun t => inGroupB tC.done (prioOf tC) t)) "c1" "b1" ReorderPos.above =
      some 1500 ∧
    (lookupDay (applyReorderRun bugState "2026-01-01" "c1" "b1" ReorderPos.above true
      demoEnv).state.tasksByDate "2026-01-01").find? (fun t => t.id == "c1") =
      some ({ tC with sort_order := 1000 }) ∧
    (1500 : Int) ≠ 1000 := by
  refine ⟨?_, ?_, by decide⟩
  · rw [bug_day_sorted]
    decide
  · rw [bug_eval]
    decide
